import Mathlib

/-!
The sPAPR virtual terminal of hw/spapr_vty.c

A shallow embedding of the ring buffer, the host-stream callbacks, the device
selection and the two hypercall handlers of `hw/spapr_vty.c`, followed by the
properties proved about them.

Conventions of the embedding

* `uint8_t` is `Fin 256`; `uint32_t` cursors are natural numbers, every
  increment and subtraction reduced modulo `2 ^ 32` as the C type does;
  `target_ulong` values are natural numbers.
* A `uint8_t *buf, int size` pair handed to a callback is the list of the
  `size` bytes it points to.
* The effects on the two external collaborators are recorded in the device:
  `qirq` counts the pulses raised by `qemu_irq_pulse`, `chardev` is the log of
  the payloads handed to `qemu_chr_fe_write`.
* A `VIOsPAPRDevice *` into the bus is the position of the child in the bus
  child list together with the device found there.
-/

namespace SpaprVty

/-! ## Data model -/

/-- The `uint8_t` of the source. -/
abbrev Byte := Fin 256

/-- The `#define VTERM_BUFSIZE 16` of the source. -/
abbrev VTERM_BUFSIZE : Nat := 16

/-- The number of values of a `uint32_t`. -/
abbrev UINT32_SIZE : Nat := 4294967296

/-- The `struct VIOsPAPRVTYDevice`. `reg` and `qirq` are the two fields of the
embedded `sdev` the file uses; `in_` is the field `in` (a reserved word here). -/
structure VIOsPAPRVTYDevice where
  /-- The field `sdev.reg`, the address of the device. -/
  reg : Nat
  /-- Number of pulses raised so far on `sdev.qirq`. -/
  qirq : Nat
  /-- Log of the payloads written through `chardev`, oldest first. -/
  chardev : List (List Byte)
  /-- Write cursor, a `uint32_t`. -/
  in_ : Nat
  /-- Read cursor, a `uint32_t`. -/
  out : Nat
  /-- The array `uint8_t buf[VTERM_BUFSIZE]`. -/
  buf : Fin VTERM_BUFSIZE → Byte

/-- A child of the VIO bus: either a device for which
`object_dynamic_cast(OBJECT(iter), "spapr-vty")` succeeds, or a VIO device of
another type, of which only `reg` matters. -/
inductive DeviceState where
  | vty (dev : VIOsPAPRVTYDevice)
  | other (reg : Nat)

/-- The `VIOsPAPRBus`: the child list `bus.children`, in list order. -/
structure VIOsPAPRBus where
  children : List DeviceState

/-- The `sPAPREnvironment`, of which the file uses `vio_bus` only. -/
structure sPAPREnvironment where
  vio_bus : VIOsPAPRBus

/-- Subtraction of two `uint32_t` values, as C computes `a - b`. -/
def sub32 (a b : Nat) : Nat := (a + UINT32_SIZE - b) % UINT32_SIZE

/-- Increment of a `uint32_t`, as C computes `a++`. -/
def inc32 (a : Nat) : Nat := (a + 1) % UINT32_SIZE

/-- The slot `c % VTERM_BUFSIZE` of the ring addressed by cursor `c`. -/
def slot (c : Nat) : Fin VTERM_BUFSIZE := ⟨c % VTERM_BUFSIZE, Nat.mod_lt c (by decide)⟩

/-! ## Ring buffer and host-stream callbacks -/

/-- The function `vty_can_receive`: `(dev->in - dev->out) < VTERM_BUFSIZE`. -/
def vty_can_receive (dev : VIOsPAPRVTYDevice) : Bool :=
  decide (sub32 dev.in_ dev.out < VTERM_BUFSIZE)

/-- Outcome of `vty_receive`: it either returns, or its `assert` fails at loop
index `i`, the device being as the preceding iterations left it. -/
inductive RecvResult where
  | done (dev : VIOsPAPRVTYDevice)
  | assert_failed (i : Nat) (dev : VIOsPAPRVTYDevice)

/-- The `for` loop of `vty_receive`, at loop index `i` with the bytes
`buf[i], ..., buf[size - 1]` still to store. -/
def vty_receive_loop (dev : VIOsPAPRVTYDevice) (i : Nat) : List Byte → RecvResult
  | [] => RecvResult.done dev
  | b :: rest =>
    if sub32 dev.in_ dev.out < VTERM_BUFSIZE then
      vty_receive_loop
        { dev with buf := Function.update dev.buf (slot dev.in_) b, in_ := inc32 dev.in_ }
        (i + 1) rest
    else
      RecvResult.assert_failed i dev

/-- The function `vty_receive`: pulse the interrupt line when the buffer is
empty and `size` is not zero, then store the bytes one by one. -/
def vty_receive (dev : VIOsPAPRVTYDevice) (buf : List Byte) : RecvResult :=
  vty_receive_loop
    (if dev.in_ = dev.out ∧ buf.length ≠ 0 then { dev with qirq := dev.qirq + 1 } else dev)
    0 buf

/-- What `vty_getchars` leaves behind: the device, the returned count `n` and
the bytes it wrote to `buf[0], ..., buf[n - 1]` of the caller. -/
structure GetcharsResult where
  dev : VIOsPAPRVTYDevice
  n : Nat
  buf : List Byte

/-- The `while` loop of `vty_getchars`. The first argument is `max - n`, the
number of iterations the test `n < max` still allows. -/
def vty_getchars_loop : Nat → VIOsPAPRVTYDevice → Nat → List Byte → GetcharsResult
  | 0, dev, n, buf => ⟨dev, n, buf⟩
  | k + 1, dev, n, buf =>
    if dev.out ≠ dev.in_ then
      vty_getchars_loop k { dev with out := inc32 dev.out } (n + 1)
        (buf ++ [dev.buf (slot dev.out)])
    else
      ⟨dev, n, buf⟩

/-- The function `vty_getchars`, `max` being a C `int`. -/
def vty_getchars (dev : VIOsPAPRVTYDevice) (max : Int) : GetcharsResult :=
  vty_getchars_loop max.toNat dev 0 []

/-- Modelled from the spec: `qemu_chr_fe_write` (qemu-char.c, not among the
sources), the write-through of the host stream: the call is recorded with the
first `len` bytes of `buf` as its payload, and no return value is consulted. -/
def qemu_chr_fe_write (chardev : List (List Byte)) (buf : List Byte) (len : Int) :
    List (List Byte) :=
  chardev ++ [buf.take len.toNat]

/-- The function `vty_putchars`. -/
def vty_putchars (dev : VIOsPAPRVTYDevice) (buf : List Byte) (len : Int) : VIOsPAPRVTYDevice :=
  { dev with chardev := qemu_chr_fe_write dev.chardev buf len }

/-! ## Device selection -/

/-- The `QTAILQ_FOREACH` loop of `spapr_vty_get_default` over the children from
position `i` on, `selected` being the device selected so far. -/
def spapr_vty_get_default_loop :
    List DeviceState → Nat → Option (Nat × VIOsPAPRVTYDevice) → Option (Nat × VIOsPAPRVTYDevice)
  | [], _, selected => selected
  | DeviceState.other _ :: rest, i, selected => spapr_vty_get_default_loop rest (i + 1) selected
  | DeviceState.vty sdev :: rest, i, none => spapr_vty_get_default_loop rest (i + 1) (some (i, sdev))
  | DeviceState.vty sdev :: rest, i, some selected =>
    if sdev.reg < selected.2.reg then
      spapr_vty_get_default_loop rest (i + 1) (some (i, sdev))
    else
      spapr_vty_get_default_loop rest (i + 1) (some selected)

/-- The function `spapr_vty_get_default`. -/
def spapr_vty_get_default (bus : VIOsPAPRBus) : Option (Nat × VIOsPAPRVTYDevice) :=
  spapr_vty_get_default_loop bus.children 0 none

/-- The scan of `spapr_vio_find_by_reg` over the children from position `i` on. -/
def spapr_vio_find_by_reg_loop :
    List DeviceState → Nat → Nat → Option (Nat × VIOsPAPRVTYDevice)
  | [], _, _ => none
  | DeviceState.other _ :: rest, i, reg => spapr_vio_find_by_reg_loop rest (i + 1) reg
  | DeviceState.vty sdev :: rest, i, reg =>
    if sdev.reg = reg then some (i, sdev) else spapr_vio_find_by_reg_loop rest (i + 1) reg

/-- Modelled from the spec: `spapr_vio_find_by_reg` (hw/spapr_vio.c, not among
the sources), the exact-match lookup by address in the registry of terminal
devices. Children that are not terminal devices are not part of that registry;
of several terminal devices with the address the first registered is found. -/
def spapr_vio_find_by_reg (bus : VIOsPAPRBus) (reg : Nat) : Option (Nat × VIOsPAPRVTYDevice) :=
  spapr_vio_find_by_reg_loop bus.children 0 reg

/-- The function `vty_lookup`. -/
def vty_lookup (spapr : sPAPREnvironment) (reg : Nat) : Option (Nat × VIOsPAPRVTYDevice) :=
  match spapr_vio_find_by_reg spapr.vio_bus reg with
  | none => if reg = 0 then spapr_vty_get_default spapr.vio_bus else none
  | some sdev => some sdev

/-! ## Hypercall handlers -/

/-- Modelled from the spec: the two status values of hw/spapr.h (not among the
sources) that the handlers return. -/
inductive HStatus where
  | H_SUCCESS
  | H_PARAMETER
  deriving DecidableEq

/-- The byte `x & 0xff` of a wider value. -/
def toByte (x : Nat) : Byte := ⟨x % 256, Nat.mod_lt x (by decide)⟩

/-- Modelled from the spec: the store `*(uint64_t *)p = cpu_to_be64(w)` (the
conversion is in bswap.h, not among the sources): the eight bytes left at `p`,
the most significant byte of the 64-bit word first. -/
def cpu_to_be64 (w : Nat) : List Byte :=
  [toByte (w / 2 ^ 56), toByte (w / 2 ^ 48), toByte (w / 2 ^ 40), toByte (w / 2 ^ 32),
   toByte (w / 2 ^ 24), toByte (w / 2 ^ 16), toByte (w / 2 ^ 8), toByte w]

/-- Modelled from the spec: the load `be64_to_cpu(*(uint64_t *)p)` (the
conversion is in bswap.h, not among the sources) of the bytes at `p`, the first
byte being the most significant. -/
def be64_to_cpu (bytes : List Byte) : Nat :=
  bytes.foldl (fun acc b => acc * 256 + b.val) 0

/-- The device `dev` written back to position `i` of the bus. -/
def store_dev (spapr : sPAPREnvironment) (i : Nat) (dev : VIOsPAPRVTYDevice) : sPAPREnvironment :=
  { spapr with vio_bus := { children := spapr.vio_bus.children.set i (DeviceState.vty dev) } }

/-- What a handler leaves behind: the status it returns, the machine, and the
`args` array, through which `h_get_term_char` returns its three outputs. -/
structure HcallResult where
  status : HStatus
  spapr : sPAPREnvironment
  args : Nat → Nat

/-- The handler `h_put_term_char`. -/
def h_put_term_char (spapr : sPAPREnvironment) (args : Nat → Nat) : HcallResult :=
  let reg := args 0
  let len := args 1
  let char0_7 := args 2
  let char8_15 := args 3
  match vty_lookup spapr reg with
  | none => ⟨HStatus.H_PARAMETER, spapr, args⟩
  | some (i, sdev) =>
    if len > 16 then
      ⟨HStatus.H_PARAMETER, spapr, args⟩
    else
      let buf := cpu_to_be64 char0_7 ++ cpu_to_be64 char8_15
      ⟨HStatus.H_SUCCESS, store_dev spapr i (vty_putchars sdev buf len), args⟩

/-- The handler `h_get_term_char`. The outputs `*len`, `*char0_7` and
`*char8_15` are `args[0]`, `args[1]` and `args[2]`. -/
def h_get_term_char (spapr : sPAPREnvironment) (args : Nat → Nat) : HcallResult :=
  let reg := args 0
  match vty_lookup spapr reg with
  | none => ⟨HStatus.H_PARAMETER, spapr, args⟩
  | some (i, sdev) =>
    let r := vty_getchars sdev 16
    let len := r.n
    let buf := if len < 16 then r.buf ++ List.replicate (16 - len) 0 else r.buf
    let args1 := Function.update args 0 len
    let args2 := Function.update args1 1 (be64_to_cpu (buf.take 8))
    let args3 := Function.update args2 2 (be64_to_cpu ((buf.drop 8).take 8))
    ⟨HStatus.H_SUCCESS, store_dev spapr i r.dev, args3⟩

/-! ## Specification-side notions -/

/-- The unread count `in - out`, computed modulo `2 ^ 32`. -/
def unread (dev : VIOsPAPRVTYDevice) : Nat := sub32 dev.in_ dev.out

/-- The unread-byte invariant: both cursors are `uint32_t` values and the
unread count is at most the capacity. -/
def UnreadInv (dev : VIOsPAPRVTYDevice) : Prop :=
  dev.in_ < UINT32_SIZE ∧ dev.out < UINT32_SIZE ∧ unread dev ≤ VTERM_BUFSIZE

/-- The bounded FIFO a device stands for: the unread bytes, oldest first. -/
def queue (dev : VIOsPAPRVTYDevice) : List Byte :=
  (List.range (unread dev)).map (fun i => dev.buf (slot (dev.out + i)))

/-- The device a `vty_receive` call leaves behind, also when its assert failed. -/
def RecvResult.dev : RecvResult → VIOsPAPRVTYDevice
  | RecvResult.done dev => dev
  | RecvResult.assert_failed _ dev => dev

/-- One call on a device, as the host stream and the guest issue them. -/
inductive Op where
  | receive (buf : List Byte)
  | getchars (max : Int)
  | putchars (buf : List Byte) (len : Int)

/-- The device after one call, or nothing when the assert of `vty_receive` failed. -/
def step (dev : VIOsPAPRVTYDevice) : Op → Option VIOsPAPRVTYDevice
  | Op.receive buf =>
    match vty_receive dev buf with
    | RecvResult.done dev1 => some dev1
    | RecvResult.assert_failed _ _ => none
  | Op.getchars max => some (vty_getchars dev max).dev
  | Op.putchars buf len => some (vty_putchars dev buf len)

/-- The device after a sequence of calls, or nothing when an assert failed. -/
def run : VIOsPAPRVTYDevice → List Op → Option VIOsPAPRVTYDevice
  | dev, [] => some dev
  | dev, op :: ops =>
    match step dev op with
    | none => none
    | some dev1 => run dev1 ops

/-- The number of bytes the `vty_receive` calls of a sequence deliver. -/
def received : List Op → Nat
  | [] => 0
  | Op.receive buf :: ops => buf.length + received ops
  | Op.getchars _ :: ops => received ops
  | Op.putchars _ _ :: ops => received ops

/-- The sequence of `n` rounds, each delivering 16 bytes and reading them all. -/
def rounds : Nat → List Op
  | 0 => []
  | n + 1 => Op.receive (List.replicate 16 0) :: Op.getchars 16 :: rounds n

/-- The run that delivers `2 ^ 32` bytes, 16 at a time, every batch but the last
being read before the next is delivered. -/
def wrap_run : List Op := rounds 268435455 ++ [Op.receive (List.replicate 16 0)]

/-- The number of steps of a run at which the unread count changes from `0` to
a positive value; the count stops where an assert fails. -/
def empty_to_nonempty (dev : VIOsPAPRVTYDevice) : List Op → Nat
  | [] => 0
  | op :: ops =>
    match step dev op with
    | none => 0
    | some dev1 =>
      (if unread dev = 0 ∧ 0 < unread dev1 then 1 else 0) + empty_to_nonempty dev1 ops

/-! ## Views of the bus -/

/-- The address `reg` of a bus child. -/
def DeviceState.reg : DeviceState → Nat
  | DeviceState.vty dev => dev.reg
  | DeviceState.other reg => reg

/-- The pulse count of the interrupt line of a terminal device on the bus. -/
def DeviceState.qirq : DeviceState → Option Nat
  | DeviceState.vty dev => some dev.qirq
  | DeviceState.other _ => none

/-- The pulse counts of the interrupt lines of all terminal devices of the machine. -/
def bus_qirq (spapr : sPAPREnvironment) : List (Option Nat) :=
  spapr.vio_bus.children.map DeviceState.qirq

/-- The ring of a terminal device on the bus: its two cursors and its buffer. -/
def DeviceState.ring : DeviceState → Option (Nat × Nat × (Fin VTERM_BUFSIZE → Byte))
  | DeviceState.vty dev => some (dev.in_, dev.out, dev.buf)
  | DeviceState.other _ => none

/-- The rings of all terminal devices of the machine. -/
def bus_ring (spapr : sPAPREnvironment) : List (Option (Nat × Nat × (Fin VTERM_BUFSIZE → Byte))) :=
  spapr.vio_bus.children.map DeviceState.ring

/-- Two bus children of the same kind, terminal devices being related by `R`. -/
def child_rel (R : VIOsPAPRVTYDevice → VIOsPAPRVTYDevice → Prop) :
    DeviceState → DeviceState → Prop
  | DeviceState.vty d, DeviceState.vty e => R d e
  | DeviceState.other r, DeviceState.other s => r = s
  | _, _ => False

/-- Two lookup results at the same position of the bus, the devices found being
related by `R`. -/
def ptr_rel (R : VIOsPAPRVTYDevice → VIOsPAPRVTYDevice → Prop) :
    Option (Nat × VIOsPAPRVTYDevice) → Option (Nat × VIOsPAPRVTYDevice) → Prop
  | none, none => True
  | some p, some q => p.1 = q.1 ∧ R p.2 q.2
  | _, _ => False

/-- Whether a bus child is a terminal device, as `object_dynamic_cast` to
"spapr-vty" decides. -/
def DeviceState.is_vty : DeviceState → Bool
  | DeviceState.vty _ => true
  | DeviceState.other _ => false

/-- The bus with the children that are not terminal devices removed. -/
def vty_children (bus : VIOsPAPRBus) : VIOsPAPRBus :=
  { children := bus.children.filter DeviceState.is_vty }

/-! ## Sample values -/

/-- A device with both cursors at `0`, as it is created. -/
def initial_dev (reg : Nat) : VIOsPAPRVTYDevice :=
  { reg := reg, qirq := 0, chardev := [], in_ := 0, out := 0, buf := fun _ => 0 }

/-- A device whose write cursor has wrapped around `2 ^ 32` while its read cursor
has not: three bytes are unread, in the slots 14, 15 and 0. -/
def wrapped_dev : VIOsPAPRVTYDevice :=
  { reg := 5, qirq := 0, chardev := [], in_ := 1, out := 4294967294,
    buf := fun i => toByte (65 + i.val) }

/-- A device with 15 unread bytes: one slot of the ring is free. -/
def almost_full_dev : VIOsPAPRVTYDevice :=
  { reg := 0, qirq := 0, chardev := [], in_ := 15, out := 0, buf := fun _ => 0 }

/-- A machine with a network device and three terminal devices, of addresses
5, 2 and 9; the first terminal device holds three unread bytes. -/
def sample_spapr : sPAPREnvironment :=
  { vio_bus := { children :=
      [DeviceState.other 1, DeviceState.vty wrapped_dev, DeviceState.vty (initial_dev 2),
       DeviceState.vty (initial_dev 9)] } }

/-- A machine with three terminal devices only, of addresses 5, 0 and 9. -/
def zero_spapr : sPAPREnvironment :=
  { vio_bus := { children :=
      [DeviceState.vty (initial_dev 5), DeviceState.vty (initial_dev 0),
       DeviceState.vty (initial_dev 9)] } }

/-- A bus on which two terminal devices share the lowest address, 1. -/
def tie_bus : VIOsPAPRBus :=
  { children :=
      [DeviceState.vty (initial_dev 3), DeviceState.other 1, DeviceState.vty (initial_dev 1),
       DeviceState.vty { initial_dev 1 with qirq := 7 }] }

/-- The `args` array holding the given values in its first entries, `0` beyond. -/
def args_of (values : List Nat) : Nat → Nat := fun k => values.getD k 0

/-! ## Arithmetic of the cursors -/

theorem sub32_lt (a b : Nat) : sub32 a b < UINT32_SIZE := by
  unfold sub32
  exact Nat.mod_lt _ (by decide)

theorem sub32_eq_zero_iff (a b : Nat) (ha : a < UINT32_SIZE) (hb : b < UINT32_SIZE) :
    sub32 a b = 0 ↔ a = b := by
  simp only [sub32, UINT32_SIZE] at *
  omega

theorem sub32_inc_left (a b : Nat) (ha : a < UINT32_SIZE) (hb : b < UINT32_SIZE)
    (h : sub32 a b < VTERM_BUFSIZE) : sub32 (inc32 a) b = sub32 a b + 1 := by
  simp only [sub32, inc32, UINT32_SIZE, VTERM_BUFSIZE] at *
  omega

theorem sub32_inc_right (a b : Nat) (ha : a < UINT32_SIZE) (hb : b < UINT32_SIZE)
    (h : b ≠ a) : sub32 a (inc32 b) = sub32 a b - 1 ∧ 0 < sub32 a b := by
  simp only [sub32, inc32, UINT32_SIZE] at *
  omega

theorem inc32_lt (a : Nat) : inc32 a < UINT32_SIZE := by
  unfold inc32
  exact Nat.mod_lt _ (by decide)

/-! ## The unread-byte invariant -/

theorem vty_receive_loop_inv (buf : List Byte) :
    ∀ (dev : VIOsPAPRVTYDevice) (i : Nat) (dev1 : VIOsPAPRVTYDevice), UnreadInv dev →
      vty_receive_loop dev i buf = RecvResult.done dev1 → UnreadInv dev1 := by
  induction buf with
  | nil =>
    intro dev i dev1 h hr
    simp only [vty_receive_loop, RecvResult.done.injEq] at hr
    exact hr ▸ h
  | cons b rest ih =>
    intro dev i dev1 h hr
    simp only [vty_receive_loop] at hr
    split at hr
    · rename_i hlt
      refine ih _ _ _ ?_ hr
      obtain ⟨h1, h2, _⟩ := h
      refine ⟨inc32_lt _, h2, ?_⟩
      simp only [unread]
      rw [sub32_inc_left _ _ h1 h2 hlt]
      exact hlt
    · exact absurd hr (by simp)

theorem vty_receive_inv (dev dev1 : VIOsPAPRVTYDevice) (buf : List Byte) (h : UnreadInv dev)
    (hr : vty_receive dev buf = RecvResult.done dev1) : UnreadInv dev1 := by
  unfold vty_receive at hr
  refine vty_receive_loop_inv buf _ 0 dev1 ?_ hr
  split
  · exact h
  · exact h

theorem vty_getchars_loop_inv (k : Nat) :
    ∀ (dev : VIOsPAPRVTYDevice) (n : Nat) (buf : List Byte), UnreadInv dev →
      UnreadInv (vty_getchars_loop k dev n buf).dev := by
  induction k with
  | zero =>
    intro dev n buf h
    exact h
  | succ k ih =>
    intro dev n buf h
    simp only [vty_getchars_loop]
    split
    · rename_i hne
      apply ih
      obtain ⟨h1, h2, h3⟩ := h
      refine ⟨h1, inc32_lt _, ?_⟩
      have := sub32_inc_right _ _ h1 h2 hne
      simp only [unread] at *
      omega
    · exact h

theorem step_inv (dev dev1 : VIOsPAPRVTYDevice) (op : Op) (h : UnreadInv dev)
    (hs : step dev op = some dev1) : UnreadInv dev1 := by
  cases op with
  | receive buf =>
    simp only [step] at hs
    split at hs
    · rename_i d hd
      simp only [Option.some.injEq] at hs
      exact hs ▸ vty_receive_inv dev d buf h hd
    · exact absurd hs (by simp)
  | getchars max =>
    simp only [step, Option.some.injEq] at hs
    exact hs ▸ vty_getchars_loop_inv _ _ _ _ h
  | putchars buf len =>
    simp only [step, Option.some.injEq] at hs
    exact hs ▸ h

theorem run_inv (ops : List Op) :
    ∀ (dev dev1 : VIOsPAPRVTYDevice), UnreadInv dev → run dev ops = some dev1 → UnreadInv dev1 := by
  induction ops with
  | nil =>
    intro dev dev1 h hr
    simp only [run, Option.some.injEq] at hr
    exact hr ▸ h
  | cons op ops ih =>
    intro dev dev1 h hr
    simp only [run] at hr
    split at hr
    · exact absurd hr (by simp)
    · rename_i d hd
      exact ih d dev1 (step_inv dev d op h hd) hr

/-- C1. Unread-byte invariant: from a device with `in = out = 0`, after every
finite sequence of `vty_receive` calls whose assert holds, `vty_getchars` calls
(any `max`) and `vty_putchars` calls, both cursors are 32-bit values and the
unread count `in - out` computed modulo `2 ^ 32` is between `0` and
`VTERM_BUFSIZE = 16`. -/
theorem unread_invariant (dev dev1 : VIOsPAPRVTYDevice) (ops : List Op)
    (hin : dev.in_ = 0) (hout : dev.out = 0) (hrun : run dev ops = some dev1) :
    dev1.in_ < UINT32_SIZE ∧ dev1.out < UINT32_SIZE ∧
    0 ≤ sub32 dev1.in_ dev1.out ∧ sub32 dev1.in_ dev1.out ≤ VTERM_BUFSIZE := by
  have h0 : UnreadInv dev := by
    refine ⟨?_, ?_, ?_⟩
    · rw [hin]; decide
    · rw [hout]; decide
    · simp only [unread, hin, hout]; decide
  obtain ⟨h1, h2, h3⟩ := run_inv ops dev dev1 h0 hrun
  exact ⟨h1, h2, Nat.zero_le _, h3⟩

theorem unread_invariant_witness :
    ∃ dev1, run (initial_dev 0) [Op.receive [1, 2, 3], Op.getchars 2, Op.putchars [7] 1]
        = some dev1 ∧ sub32 dev1.in_ dev1.out ≤ VTERM_BUFSIZE :=
  ⟨_, rfl, (unread_invariant (initial_dev 0) _
    [Op.receive [1, 2, 3], Op.getchars 2, Op.putchars [7] 1] rfl rfl rfl).2.2.2⟩

/-! ## The dequeue contract -/

theorem slot_eq_iff (a b : Nat) : slot a = slot b ↔ a % 16 = b % 16 := by
  simp only [slot, Fin.mk.injEq]

theorem dev_out_eta (dev : VIOsPAPRVTYDevice) (h : dev.out < UINT32_SIZE) :
    { dev with out := (dev.out + 0) % UINT32_SIZE } = dev := by
  cases dev
  simp only [Nat.add_zero, VIOsPAPRVTYDevice.mk.injEq, true_and, and_true]
  exact Nat.mod_eq_of_lt h

theorem vty_getchars_loop_spec (k : Nat) :
    ∀ (dev : VIOsPAPRVTYDevice) (n : Nat) (buf : List Byte),
      dev.in_ < UINT32_SIZE → dev.out < UINT32_SIZE →
      vty_getchars_loop k dev n buf =
        ⟨{ dev with out := (dev.out + min k (unread dev)) % UINT32_SIZE },
         n + min k (unread dev),
         buf ++ (List.range (min k (unread dev))).map (fun i => dev.buf (slot (dev.out + i)))⟩ := by
  induction k with
  | zero =>
    intro dev n buf _ hout
    simp only [vty_getchars_loop, Nat.zero_min, List.range_zero, List.map_nil, List.append_nil,
      Nat.add_zero, GetcharsResult.mk.injEq, and_true]
    exact (dev_out_eta dev hout).symm
  | succ k ih =>
    intro dev n buf hin hout
    simp only [vty_getchars_loop]
    split
    · rename_i hne
      have hs := sub32_inc_right _ _ hin hout hne
      rw [ih { dev with out := inc32 dev.out } _ _ hin (inc32_lt _)]
      have hu : unread { dev with out := inc32 dev.out } = unread dev - 1 := hs.1
      have hpos : 0 < unread dev := hs.2
      have hm : min (k + 1) (unread dev) = min k (unread dev - 1) + 1 := by omega
      rw [hu, hm]
      simp only [GetcharsResult.mk.injEq]
      refine ⟨?_, by omega, ?_⟩
      · simp only [VIOsPAPRVTYDevice.mk.injEq, true_and, and_true, inc32, UINT32_SIZE]
        omega
      · rw [List.range_succ_eq_map, List.map_cons, List.map_map, List.append_assoc]
        simp only [List.singleton_append, Nat.add_zero, List.cons.injEq, true_and,
          List.append_cancel_left_eq]
        apply List.map_congr_left
        intro i _
        simp only [Function.comp]
        congr 1
        rw [slot_eq_iff]
        simp only [inc32, UINT32_SIZE]
        omega
    · rename_i heq
      have heq2 : dev.out = dev.in_ := by
        by_contra hc
        exact heq hc
      have hz : unread dev = 0 := by
        simp only [unread]
        exact (sub32_eq_zero_iff _ _ hin hout).2 heq2.symm
      simp only [hz, Nat.min_zero, List.range_zero, List.map_nil, List.append_nil,
        Nat.add_zero, GetcharsResult.mk.injEq, and_true]
      exact (dev_out_eta dev hout).symm

/-- C2. Dequeue contract: on a device satisfying the unread-byte invariant with
`u` unread bytes, `vty_getchars(max)` returns `n = min(max, u)` for `max ≥ 0`,
writes exactly `n` bytes, the `i`-th being `buf[(out + i) mod 16]`, advances
`out` by exactly `n` (modulo `2 ^ 32`) and changes nothing else of the device;
for `max ≤ 0` it returns `0`, writes nothing and leaves the device unchanged.
The function is total: it never fails and always returns. -/
theorem vty_getchars_contract (dev : VIOsPAPRVTYDevice) (max : Int) (h : UnreadInv dev) :
    (0 ≤ max → ((vty_getchars dev max).n : Int) = min max (unread dev)) ∧
    (vty_getchars dev max).buf.length = (vty_getchars dev max).n ∧
    (∀ i, i < (vty_getchars dev max).n →
      (vty_getchars dev max).buf[i]? = some (dev.buf (slot (dev.out + i)))) ∧
    (vty_getchars dev max).dev =
      { dev with out := (dev.out + (vty_getchars dev max).n) % UINT32_SIZE } ∧
    (max ≤ 0 → (vty_getchars dev max).n = 0 ∧ (vty_getchars dev max).buf = [] ∧
      (vty_getchars dev max).dev = dev) := by
  obtain ⟨hin, hout, _⟩ := h
  unfold vty_getchars
  rw [vty_getchars_loop_spec _ dev 0 [] hin hout]
  simp only [Nat.zero_add, List.nil_append, List.length_map, List.length_range, true_and]
  refine ⟨?_, ?_, ?_⟩
  · intro h0
    omega
  · intro i hi
    simp only [List.getElem?_map, List.getElem?_range hi, Option.map_some']
  · intro h0
    have hz : max.toNat = 0 := by omega
    simp only [hz, Nat.zero_min, List.range_zero, List.map_nil, true_and]
    exact dev_out_eta dev hout

theorem vty_getchars_contract_witness :
    UnreadInv wrapped_dev ∧ (vty_getchars wrapped_dev 2).buf.length = (vty_getchars wrapped_dev 2).n :=
  ⟨⟨by decide, by decide, by decide⟩,
   (vty_getchars_contract wrapped_dev 2 ⟨by decide, by decide, by decide⟩).2.1⟩

/-! ## Refinement of a bounded FIFO -/

theorem queue_length (dev : VIOsPAPRVTYDevice) : (queue dev).length = unread dev := by
  simp only [queue, List.length_map, List.length_range]

theorem queue_enqueue (dev : VIOsPAPRVTYDevice) (b : Byte) (hin : dev.in_ < UINT32_SIZE)
    (hout : dev.out < UINT32_SIZE) (hu : unread dev < VTERM_BUFSIZE) :
    queue { dev with buf := Function.update dev.buf (slot dev.in_) b, in_ := inc32 dev.in_ }
      = queue dev ++ [b] := by
  have hs : unread
      { dev with buf := Function.update dev.buf (slot dev.in_) b, in_ := inc32 dev.in_ }
      = unread dev + 1 := sub32_inc_left _ _ hin hout hu
  simp only [queue]
  rw [hs, List.range_succ, List.map_append]
  congr 1
  · apply List.map_congr_left
    intro i hi
    have hi2 : i < unread dev := List.mem_range.1 hi
    apply Function.update_noteq
    intro hc
    rw [slot_eq_iff] at hc
    simp only [unread, sub32, UINT32_SIZE, VTERM_BUFSIZE] at *
    omega
  · simp only [List.map_cons, List.map_nil, List.cons.injEq, and_true]
    have he : slot (dev.out + unread dev) = slot dev.in_ := by
      rw [slot_eq_iff]
      simp only [unread, sub32, UINT32_SIZE, VTERM_BUFSIZE] at *
      omega
    rw [he]
    exact Function.update_same _ _ _

theorem queue_dequeue (dev : VIOsPAPRVTYDevice) (hin : dev.in_ < UINT32_SIZE)
    (hout : dev.out < UINT32_SIZE) (hne : dev.out ≠ dev.in_) :
    queue dev = dev.buf (slot dev.out) :: queue { dev with out := inc32 dev.out } := by
  have hs := sub32_inc_right _ _ hin hout hne
  have hu : unread { dev with out := inc32 dev.out } = unread dev - 1 := hs.1
  have hpos : 0 < unread dev := hs.2
  have hsplit : unread dev = (unread dev - 1) + 1 := by omega
  simp only [queue]
  rw [hu]
  conv_lhs => rw [hsplit, List.range_succ_eq_map, List.map_cons, List.map_map]
  simp only [Nat.add_zero, List.cons.injEq, true_and]
  apply List.map_congr_left
  intro i _
  simp only [Function.comp]
  congr 1
  rw [slot_eq_iff]
  simp only [inc32, UINT32_SIZE]
  omega

theorem queue_empty (dev : VIOsPAPRVTYDevice) (hin : dev.in_ < UINT32_SIZE)
    (hout : dev.out < UINT32_SIZE) (he : dev.out = dev.in_) : queue dev = [] := by
  have hz : unread dev = 0 := (sub32_eq_zero_iff _ _ hin hout).2 he.symm
  simp only [queue, hz, List.range_zero, List.map_nil]

theorem vty_receive_loop_fits (buf : List Byte) :
    ∀ (dev : VIOsPAPRVTYDevice) (i : Nat), dev.in_ < UINT32_SIZE → dev.out < UINT32_SIZE →
      unread dev + buf.length ≤ VTERM_BUFSIZE →
      ∃ dev1, vty_receive_loop dev i buf = RecvResult.done dev1 ∧
        queue dev1 = queue dev ++ buf ∧ dev1.out = dev.out ∧
        dev1.in_ = (dev.in_ + buf.length) % UINT32_SIZE ∧
        dev1.reg = dev.reg ∧ dev1.qirq = dev.qirq ∧ dev1.chardev = dev.chardev := by
  induction buf with
  | nil =>
    intro dev i hin _ _
    refine ⟨dev, rfl, by simp, rfl, ?_, rfl, rfl, rfl⟩
    simp only [List.length_nil, Nat.add_zero]
    exact (Nat.mod_eq_of_lt hin).symm
  | cons b rest ih =>
    intro dev i hin hout hfit
    simp only [List.length_cons] at hfit
    have hlt : sub32 dev.in_ dev.out < VTERM_BUFSIZE := by
      simp only [unread] at hfit
      omega
    have hs : unread
        { dev with buf := Function.update dev.buf (slot dev.in_) b, in_ := inc32 dev.in_ }
        = unread dev + 1 := sub32_inc_left _ _ hin hout hlt
    obtain ⟨dev1, h1, h2, h3, h4, h5, h6, h7⟩ :=
      ih { dev with buf := Function.update dev.buf (slot dev.in_) b, in_ := inc32 dev.in_ }
        (i + 1) (inc32_lt _) hout (by rw [hs]; omega)
    refine ⟨dev1, ?_, ?_, h3, ?_, h5, h6, h7⟩
    · simp only [vty_receive_loop, if_pos hlt]
      exact h1
    · rw [h2, queue_enqueue dev b hin hout hlt, List.append_assoc]
      rfl
    · rw [h4]
      simp only [inc32, UINT32_SIZE, List.length_cons]
      omega

theorem vty_getchars_loop_queue (k : Nat) :
    ∀ (dev : VIOsPAPRVTYDevice) (n : Nat) (acc : List Byte),
      dev.in_ < UINT32_SIZE → dev.out < UINT32_SIZE →
      (vty_getchars_loop k dev n acc).buf = acc ++ (queue dev).take k ∧
      queue (vty_getchars_loop k dev n acc).dev = (queue dev).drop k := by
  induction k with
  | zero =>
    intro dev n acc _ _
    simp [vty_getchars_loop]
  | succ k ih =>
    intro dev n acc hin hout
    simp only [vty_getchars_loop]
    split
    · rename_i hne
      obtain ⟨h1, h2⟩ := ih { dev with out := inc32 dev.out } (n + 1)
        (acc ++ [dev.buf (slot dev.out)]) hin (inc32_lt _)
      rw [h1, h2, queue_dequeue dev hin hout hne]
      simp
    · rename_i heq
      have heq2 : dev.out = dev.in_ := by
        by_contra hc
        exact heq hc
      simp [queue_empty dev hin hout heq2]

theorem take_min_length {α : Type} (k : Nat) (l : List α) :
    l.take (min k l.length) = l.take k ∧ l.drop (min k l.length) = l.drop k := by
  rcases Nat.le_total k l.length with h | h
  · rw [Nat.min_eq_left h]
    exact ⟨rfl, rfl⟩
  · rw [Nat.min_eq_right h, List.take_length, List.drop_length, List.take_of_length_le h,
      List.drop_of_length_le h]
    exact ⟨rfl, rfl⟩

/-- C3. The ring buffer refines a bounded FIFO list, also across the wrap of the
cursors at `2 ^ 32`. With `queue dev` the list of the bytes
`buf[(out + i) mod 16]` for `i < (in - out) mod 2 ^ 32`: for every pair of 32-bit
cursors with unread count at most 16 and every batch `b` with
`|b| ≤ 16 - |queue dev|`, `vty_receive` returns with a device whose queue is
`queue dev ++ b`; and `vty_getchars(max)` returns the first
`min(max, |queue dev|)` elements of `queue dev` and leaves the rest as the queue. -/
theorem ring_refines_fifo (dev : VIOsPAPRVTYDevice) (h : UnreadInv dev) :
    (queue dev).length = sub32 dev.in_ dev.out ∧
    (∀ b : List Byte, b.length ≤ VTERM_BUFSIZE - (queue dev).length →
      ∃ dev1, vty_receive dev b = RecvResult.done dev1 ∧ queue dev1 = queue dev ++ b) ∧
    (∀ max : Int,
      (vty_getchars dev max).buf = (queue dev).take (min max.toNat (queue dev).length) ∧
      queue (vty_getchars dev max).dev = (queue dev).drop (min max.toNat (queue dev).length)) := by
  obtain ⟨hin, hout, hu⟩ := h
  refine ⟨queue_length dev, ?_, ?_⟩
  · intro b hb
    rw [queue_length] at hb
    unfold vty_receive
    split
    · obtain ⟨dev1, h1, h2, _⟩ := vty_receive_loop_fits b { dev with qirq := dev.qirq + 1 } 0
        hin hout (by simp only [unread] at *; omega)
      exact ⟨dev1, h1, h2⟩
    · obtain ⟨dev1, h1, h2, _⟩ := vty_receive_loop_fits b dev 0 hin hout (by omega)
      exact ⟨dev1, h1, h2⟩
  · intro max
    obtain ⟨h1, h2⟩ := vty_getchars_loop_queue max.toNat dev 0 [] hin hout
    obtain ⟨h3, h4⟩ := take_min_length max.toNat (queue dev)
    unfold vty_getchars
    rw [h1, h2, h3, h4]
    exact ⟨rfl, rfl⟩

theorem ring_refines_fifo_witness :
    UnreadInv wrapped_dev ∧
    ∃ dev1, vty_receive wrapped_dev [1, 2] = RecvResult.done dev1 ∧
      queue dev1 = queue wrapped_dev ++ [1, 2] :=
  ⟨⟨by decide, by decide, by decide⟩,
   (ring_refines_fifo wrapped_dev ⟨by decide, by decide, by decide⟩).2.1 [1, 2] (by decide)⟩

/-! ## Frame properties of the loops and of the lookup -/

theorem vty_receive_loop_frame (buf : List Byte) :
    ∀ (dev : VIOsPAPRVTYDevice) (i : Nat),
      (vty_receive_loop dev i buf).dev.qirq = dev.qirq ∧
      (vty_receive_loop dev i buf).dev.reg = dev.reg ∧
      (vty_receive_loop dev i buf).dev.chardev = dev.chardev ∧
      (vty_receive_loop dev i buf).dev.out = dev.out := by
  induction buf with
  | nil =>
    intro dev i
    exact ⟨rfl, rfl, rfl, rfl⟩
  | cons b rest ih =>
    intro dev i
    simp only [vty_receive_loop]
    split
    · exact ih _ _
    · exact ⟨rfl, rfl, rfl, rfl⟩

theorem vty_getchars_loop_frame (k : Nat) :
    ∀ (dev : VIOsPAPRVTYDevice) (n : Nat) (acc : List Byte),
      (vty_getchars_loop k dev n acc).dev.qirq = dev.qirq ∧
      (vty_getchars_loop k dev n acc).dev.reg = dev.reg ∧
      (vty_getchars_loop k dev n acc).dev.chardev = dev.chardev ∧
      (vty_getchars_loop k dev n acc).dev.in_ = dev.in_ ∧
      (vty_getchars_loop k dev n acc).dev.buf = dev.buf := by
  induction k with
  | zero =>
    intro dev n acc
    exact ⟨rfl, rfl, rfl, rfl, rfl⟩
  | succ k ih =>
    intro dev n acc
    simp only [vty_getchars_loop]
    split
    · exact ih _ _ _
    · exact ⟨rfl, rfl, rfl, rfl, rfl⟩

theorem find_by_reg_loop_sound (l : List DeviceState) :
    ∀ (off reg i : Nat) (d : VIOsPAPRVTYDevice),
      spapr_vio_find_by_reg_loop l off reg = some (i, d) →
      off ≤ i ∧ l[i - off]? = some (DeviceState.vty d) ∧ d.reg = reg := by
  induction l with
  | nil =>
    intro off reg i d h
    simp [spapr_vio_find_by_reg_loop] at h
  | cons c rest ih =>
    intro off reg i d h
    cases c with
    | other r =>
      simp only [spapr_vio_find_by_reg_loop] at h
      obtain ⟨h1, h2, h3⟩ := ih _ _ _ _ h
      have he : i - off = (i - (off + 1)) + 1 := by omega
      refine ⟨by omega, ?_, h3⟩
      rw [he, List.getElem?_cons_succ]
      exact h2
    | vty sdev =>
      simp only [spapr_vio_find_by_reg_loop] at h
      split at h
      · rename_i hreg
        simp only [Option.some.injEq, Prod.mk.injEq] at h
        obtain ⟨h1, h2⟩ := h
        subst h1 h2
        simp [hreg]
      · obtain ⟨h1, h2, h3⟩ := ih _ _ _ _ h
        have he : i - off = (i - (off + 1)) + 1 := by omega
        refine ⟨by omega, ?_, h3⟩
        rw [he, List.getElem?_cons_succ]
        exact h2

theorem get_default_loop_sound (l : List DeviceState) :
    ∀ (off : Nat) (sel : Option (Nat × VIOsPAPRVTYDevice)) (i : Nat) (d : VIOsPAPRVTYDevice),
      spapr_vty_get_default_loop l off sel = some (i, d) →
      sel = some (i, d) ∨ (off ≤ i ∧ l[i - off]? = some (DeviceState.vty d)) := by
  induction l with
  | nil =>
    intro off sel i d h
    simp only [spapr_vty_get_default_loop] at h
    exact Or.inl h
  | cons c rest ih =>
    intro off sel i d h
    have hstep : ∀ sel1, spapr_vty_get_default_loop rest (off + 1) sel1 = some (i, d) →
        sel1 = some (i, d) ∨ (off ≤ i ∧ (c :: rest)[i - off]? = some (DeviceState.vty d)) := by
      intro sel1 h1
      rcases ih _ _ _ _ h1 with h2 | ⟨h2, h3⟩
      · exact Or.inl h2
      · have he : i - off = (i - (off + 1)) + 1 := by omega
        refine Or.inr ⟨by omega, ?_⟩
        rw [he, List.getElem?_cons_succ]
        exact h3
    cases c with
    | other r =>
      simp only [spapr_vty_get_default_loop] at h
      exact hstep _ h
    | vty sdev =>
      cases sel with
      | none =>
        simp only [spapr_vty_get_default_loop] at h
        rcases hstep _ h with h2 | h2
        · simp only [Option.some.injEq, Prod.mk.injEq] at h2
          obtain ⟨h3, h4⟩ := h2
          subst h3 h4
          exact Or.inr ⟨Nat.le_refl _, by simp⟩
        · exact Or.inr h2
      | some s =>
        simp only [spapr_vty_get_default_loop] at h
        split at h
        · rcases hstep _ h with h2 | h2
          · simp only [Option.some.injEq, Prod.mk.injEq] at h2
            obtain ⟨h3, h4⟩ := h2
            subst h3 h4
            exact Or.inr ⟨Nat.le_refl _, by simp⟩
          · exact Or.inr h2
        · exact hstep _ h

theorem vty_lookup_sound (spapr : sPAPREnvironment) (reg i : Nat) (d : VIOsPAPRVTYDevice)
    (h : vty_lookup spapr reg = some (i, d)) :
    spapr.vio_bus.children[i]? = some (DeviceState.vty d) := by
  unfold vty_lookup at h
  split at h
  · split at h
    · rcases get_default_loop_sound _ _ _ _ _ h with h1 | ⟨_, h1⟩
      · exact absurd h1 (by simp)
      · exact h1
    · exact absurd h (by simp)
  · rename_i p hp
    simp only [Option.some.injEq] at h
    subst h
    exact (find_by_reg_loop_sound _ _ _ _ _ hp).2.1

theorem map_set_same {α β : Type} (f : α → β) (l : List α) :
    ∀ (i : Nat) (a b : α), l[i]? = some a → f b = f a → (l.set i b).map f = l.map f := by
  induction l with
  | nil =>
    intro i a b h _
    simp at h
  | cons c rest ih =>
    intro i a b h hf
    cases i with
    | zero =>
      simp only [List.getElem?_cons_zero, Option.some.injEq] at h
      simp only [List.set_cons_zero, List.map_cons, hf, h]
    | succ j =>
      simp only [List.getElem?_cons_succ] at h
      simp only [List.set_cons_succ, List.map_cons, ih j a b h hf]

/-! ## The three paths of the handlers -/

theorem h_put_term_char_unresolved (spapr : sPAPREnvironment) (args : Nat → Nat)
    (hl : vty_lookup spapr (args 0) = none) :
    h_put_term_char spapr args = ⟨HStatus.H_PARAMETER, spapr, args⟩ := by
  simp only [h_put_term_char, hl]

theorem h_put_term_char_oversized (spapr : sPAPREnvironment) (args : Nat → Nat) (i : Nat)
    (sdev : VIOsPAPRVTYDevice) (hl : vty_lookup spapr (args 0) = some (i, sdev))
    (hlen : args 1 > 16) :
    h_put_term_char spapr args = ⟨HStatus.H_PARAMETER, spapr, args⟩ := by
  simp only [h_put_term_char, hl, if_pos hlen]

theorem h_put_term_char_written (spapr : sPAPREnvironment) (args : Nat → Nat) (i : Nat)
    (sdev : VIOsPAPRVTYDevice) (hl : vty_lookup spapr (args 0) = some (i, sdev))
    (hlen : ¬ args 1 > 16) :
    h_put_term_char spapr args =
      ⟨HStatus.H_SUCCESS,
       store_dev spapr i
         (vty_putchars sdev (cpu_to_be64 (args 2) ++ cpu_to_be64 (args 3)) (args 1)),
       args⟩ := by
  simp only [h_put_term_char, hl, if_neg hlen]

theorem h_get_term_char_unresolved (spapr : sPAPREnvironment) (args : Nat → Nat)
    (hl : vty_lookup spapr (args 0) = none) :
    h_get_term_char spapr args = ⟨HStatus.H_PARAMETER, spapr, args⟩ := by
  simp only [h_get_term_char, hl]

theorem h_get_term_char_resolved (spapr : sPAPREnvironment) (args : Nat → Nat) (i : Nat)
    (sdev : VIOsPAPRVTYDevice) (hl : vty_lookup spapr (args 0) = some (i, sdev)) :
    h_get_term_char spapr args =
      ⟨HStatus.H_SUCCESS, store_dev spapr i (vty_getchars sdev 16).dev,
       Function.update
         (Function.update (Function.update args 0 (vty_getchars sdev 16).n) 1
           (be64_to_cpu
             ((if (vty_getchars sdev 16).n < 16 then
                (vty_getchars sdev 16).buf ++ List.replicate (16 - (vty_getchars sdev 16).n) 0
               else (vty_getchars sdev 16).buf).take 8)))
         2
         (be64_to_cpu
           (((if (vty_getchars sdev 16).n < 16 then
                (vty_getchars sdev 16).buf ++ List.replicate (16 - (vty_getchars sdev 16).n) 0
              else (vty_getchars sdev 16).buf).drop 8).take 8))⟩ := by
  simp only [h_get_term_char, hl]

/-! ## Notification -/

/-- C4. Per-batch notification: for every device state and every batch, one
`vty_receive` call (whether it returns or its assert fails) pulses the interrupt
line exactly once if `in == out` before the call and the batch is not empty,
whatever its size, and not at all otherwise; `vty_getchars`, `vty_putchars`,
`h_put_term_char` and `h_get_term_char` never pulse a line. -/
theorem notify_per_batch :
    (∀ (dev : VIOsPAPRVTYDevice) (buf : List Byte),
      (vty_receive dev buf).dev.qirq
        = dev.qirq + (if dev.in_ = dev.out ∧ buf ≠ [] then 1 else 0)) ∧
    (∀ (dev : VIOsPAPRVTYDevice) (max : Int), (vty_getchars dev max).dev.qirq = dev.qirq) ∧
    (∀ (dev : VIOsPAPRVTYDevice) (buf : List Byte) (len : Int),
      (vty_putchars dev buf len).qirq = dev.qirq) ∧
    (∀ (spapr : sPAPREnvironment) (args : Nat → Nat),
      bus_qirq (h_put_term_char spapr args).spapr = bus_qirq spapr) ∧
    (∀ (spapr : sPAPREnvironment) (args : Nat → Nat),
      bus_qirq (h_get_term_char spapr args).spapr = bus_qirq spapr) := by
  refine ⟨?_, ?_, ?_, ?_, ?_⟩
  · intro dev buf
    unfold vty_receive
    rw [(vty_receive_loop_frame buf _ 0).1]
    by_cases hc : dev.in_ = dev.out ∧ buf ≠ []
    · have hc2 : dev.in_ = dev.out ∧ buf.length ≠ 0 :=
        ⟨hc.1, fun hl => hc.2 (List.length_eq_zero.1 hl)⟩
      rw [if_pos hc, if_pos hc2]
    · have hc2 : ¬ (dev.in_ = dev.out ∧ buf.length ≠ 0) :=
        fun hl => hc ⟨hl.1, fun hn => hl.2 (by rw [hn]; rfl)⟩
      rw [if_neg hc, if_neg hc2]
      rfl
  · intro dev max
    exact (vty_getchars_loop_frame _ dev 0 []).1
  · intro dev buf len
    rfl
  · intro spapr args
    cases hl : vty_lookup spapr (args 0) with
    | none => rw [h_put_term_char_unresolved spapr args hl]
    | some p =>
      obtain ⟨i, sdev⟩ := p
      by_cases hlen : args 1 > 16
      · rw [h_put_term_char_oversized spapr args i sdev hl hlen]
      · rw [h_put_term_char_written spapr args i sdev hl hlen]
        exact map_set_same DeviceState.qirq _ i _ _ (vty_lookup_sound _ _ _ _ hl) rfl
  · intro spapr args
    cases hl : vty_lookup spapr (args 0) with
    | none => rw [h_get_term_char_unresolved spapr args hl]
    | some p =>
      obtain ⟨i, sdev⟩ := p
      rw [h_get_term_char_resolved spapr args i sdev hl]
      refine map_set_same DeviceState.qirq _ i _ _ (vty_lookup_sound _ _ _ _ hl) ?_
      simp only [DeviceState.qirq, Option.some.injEq]
      exact (vty_getchars_loop_frame _ sdev 0 []).1
/-! ## The wire encoding -/

theorem be64_roundtrip (bs : List Byte) (h : bs.length = 8) :
    cpu_to_be64 (be64_to_cpu bs) = bs ∧ be64_to_cpu bs < 2 ^ 64 := by
  match bs, h with
  | [b0, b1, b2, b3, b4, b5, b6, b7], _ =>
    have h0 := b0.isLt
    have h1 := b1.isLt
    have h2 := b2.isLt
    have h3 := b3.isLt
    have h4 := b4.isLt
    have h5 := b5.isLt
    have h6 := b6.isLt
    have h7 := b7.isLt
    simp only [cpu_to_be64, be64_to_cpu, toByte, List.foldl, Nat.zero_mul, Nat.zero_add,
      List.cons.injEq, and_true, Nat.reducePow]
    refine ⟨⟨?_, ?_, ?_, ?_, ?_, ?_, ?_, ?_⟩, ?_⟩ <;> first | (apply Fin.ext; simp only []; omega) | omega

theorem vty_getchars_16 (sdev : VIOsPAPRVTYDevice) (h : UnreadInv sdev) :
    (vty_getchars sdev 16).n = unread sdev ∧ (vty_getchars sdev 16).buf = queue sdev ∧
    (vty_getchars sdev 16).dev = { sdev with out := (sdev.out + unread sdev) % UINT32_SIZE } := by
  obtain ⟨hin, hout, hu⟩ := h
  have hm : min (16 : Int).toNat (unread sdev) = unread sdev := by
    have : (16 : Int).toNat = 16 := rfl
    rw [this]
    exact Nat.min_eq_right hu
  unfold vty_getchars
  rw [vty_getchars_loop_spec _ sdev 0 [] hin hout, hm]
  exact ⟨Nat.zero_add _, rfl, rfl⟩

theorem chunk_words (q : List Byte) (hq : q.length ≤ 16) :
    cpu_to_be64 (be64_to_cpu ((q ++ List.replicate (16 - q.length) 0).take 8)) ++
      cpu_to_be64 (be64_to_cpu (((q ++ List.replicate (16 - q.length) 0).drop 8).take 8))
      = q ++ List.replicate (16 - q.length) 0 ∧
    be64_to_cpu ((q ++ List.replicate (16 - q.length) 0).take 8) < 2 ^ 64 ∧
    be64_to_cpu (((q ++ List.replicate (16 - q.length) 0).drop 8).take 8) < 2 ^ 64 := by
  have hlen : (q ++ List.replicate (16 - q.length) (0 : Byte)).length = 16 := by
    simp only [List.length_append, List.length_replicate]
    omega
  generalize q ++ List.replicate (16 - q.length) (0 : Byte) = c at hlen
  have h1 : (c.take 8).length = 8 := by
    rw [List.length_take, hlen]
    rfl
  have h2 : ((c.drop 8).take 8).length = 8 := by
    rw [List.length_take, List.length_drop, hlen]
    rfl
  have h3 : (c.drop 8).take 8 = c.drop 8 := by
    apply List.take_of_length_le
    rw [List.length_drop, hlen]
  refine ⟨?_, (be64_roundtrip _ h1).2, (be64_roundtrip _ h2).2⟩
  rw [(be64_roundtrip _ h1).1, (be64_roundtrip _ h2).1, h3]
  exact List.take_append_drop 8 c

theorem h_get_term_char_outputs (spapr : sPAPREnvironment) (args : Nat → Nat) (i : Nat)
    (sdev : VIOsPAPRVTYDevice) (hl : vty_lookup spapr (args 0) = some (i, sdev))
    (hinv : UnreadInv sdev) :
    (h_get_term_char spapr args).status = HStatus.H_SUCCESS ∧
    (h_get_term_char spapr args).spapr
      = store_dev spapr i { sdev with out := (sdev.out + unread sdev) % UINT32_SIZE } ∧
    (h_get_term_char spapr args).args 0 = unread sdev ∧
    (h_get_term_char spapr args).args 1
      = be64_to_cpu ((queue sdev ++ List.replicate (16 - unread sdev) 0).take 8) ∧
    (h_get_term_char spapr args).args 2
      = be64_to_cpu (((queue sdev ++ List.replicate (16 - unread sdev) 0).drop 8).take 8) ∧
    (∀ k, 3 ≤ k → (h_get_term_char spapr args).args k = args k) := by
  obtain ⟨hn, hb, hd⟩ := vty_getchars_16 sdev hinv
  have hu : unread sdev ≤ 16 := hinv.2.2
  have hbuf : (if unread sdev < 16 then queue sdev ++ List.replicate (16 - unread sdev) 0
      else queue sdev) = queue sdev ++ List.replicate (16 - unread sdev) 0 := by
    split
    · rfl
    · have hz : 16 - unread sdev = 0 := by omega
      rw [hz]
      simp
  rw [h_get_term_char_resolved spapr args i sdev hl, hn, hb, hd, hbuf]
  refine ⟨rfl, rfl, ?_, ?_, ?_, ?_⟩
  · simp [Function.update]
  · simp [Function.update]
  · simp [Function.update]
  · intro k hk
    have h0 : k ≠ 0 := by omega
    have h1 : k ≠ 1 := by omega
    have h2 : k ≠ 2 := by omega
    simp [Function.update, h0, h1, h2]

/-- C5. Read handler result: when the address resolves to a device satisfying
the unread-byte invariant with `u` unread bytes, `h_get_term_char` returns
`H_SUCCESS` (also for `u = 0`), its count output is `n = min(u, 16)`, which lies
in `[0, 16]`, and its two output words are 64-bit values whose big-endian bytes,
first word first, are exactly 16 bytes: the `n` dequeued bytes in FIFO order
followed by `16 - n` zero bytes; both words are `0` when `n = 0`. -/
theorem h_get_term_char_result (spapr : sPAPREnvironment) (args : Nat → Nat) (i : Nat)
    (sdev : VIOsPAPRVTYDevice) (hl : vty_lookup spapr (args 0) = some (i, sdev))
    (hinv : UnreadInv sdev) :
    (h_get_term_char spapr args).status = HStatus.H_SUCCESS ∧
    (h_get_term_char spapr args).args 0 = min (unread sdev) 16 ∧
    (h_get_term_char spapr args).args 0 ≤ 16 ∧
    (h_get_term_char spapr args).args 1 < 2 ^ 64 ∧
    (h_get_term_char spapr args).args 2 < 2 ^ 64 ∧
    cpu_to_be64 ((h_get_term_char spapr args).args 1) ++
        cpu_to_be64 ((h_get_term_char spapr args).args 2)
      = (queue sdev).take ((h_get_term_char spapr args).args 0) ++
        List.replicate (16 - (h_get_term_char spapr args).args 0) 0 ∧
    ((cpu_to_be64 ((h_get_term_char spapr args).args 1) ++
        cpu_to_be64 ((h_get_term_char spapr args).args 2)).length = 16) ∧
    ((h_get_term_char spapr args).args 0 = 0 →
      (h_get_term_char spapr args).args 1 = 0 ∧ (h_get_term_char spapr args).args 2 = 0) := by
  obtain ⟨hs, _, h0, h1, h2, _⟩ := h_get_term_char_outputs spapr args i sdev hl hinv
  have hu : unread sdev ≤ 16 := hinv.2.2
  have hq : (queue sdev).length = unread sdev := queue_length sdev
  obtain ⟨c1, c2, c3⟩ := chunk_words (queue sdev) (by omega)
  rw [hq] at c1 c2 c3
  have ht : (queue sdev).take (unread sdev) = queue sdev := by
    apply List.take_of_length_le
    omega
  rw [h0, h1, h2, ht]
  refine ⟨hs, (Nat.min_eq_left hu).symm, hu, c2, c3, c1, ?_, ?_⟩
  · rfl
  · intro hz
    have hnil : queue sdev = [] := List.length_eq_zero.1 (hq.trans hz)
    rw [hnil, hz]
    exact ⟨by decide, by decide⟩

theorem h_get_term_char_result_witness :
    vty_lookup sample_spapr 5 = some (1, wrapped_dev) ∧ UnreadInv wrapped_dev ∧
    (h_get_term_char sample_spapr (fun _ => 5)).status = HStatus.H_SUCCESS ∧
    (h_get_term_char sample_spapr (fun _ => 5)).args 0 = min (unread wrapped_dev) 16 :=
  ⟨rfl, ⟨by decide, by decide, by decide⟩,
   (h_get_term_char_result sample_spapr (fun _ => 5) 1 wrapped_dev rfl
      ⟨by decide, by decide, by decide⟩).1,
   (h_get_term_char_result sample_spapr (fun _ => 5) 1 wrapped_dev rfl
      ⟨by decide, by decide, by decide⟩).2.1⟩

/-! ## The lookup on related buses -/

theorem find_by_reg_loop_rel (R : VIOsPAPRVTYDevice → VIOsPAPRVTYDevice → Prop)
    (hR : ∀ d e, R d e → d.reg = e.reg) (l m : List DeviceState)
    (h : List.Forall₂ (child_rel R) l m) :
    ∀ (off reg : Nat),
      ptr_rel R (spapr_vio_find_by_reg_loop l off reg) (spapr_vio_find_by_reg_loop m off reg) := by
  induction h with
  | nil =>
    intro off reg
    exact trivial
  | @cons c c2 rest rest2 hc _ ih =>
    intro off reg
    cases c with
    | other r =>
      cases c2 with
      | other s => exact ih _ _
      | vty e => exact absurd hc (by simp [child_rel])
    | vty d =>
      cases c2 with
      | other s => exact absurd hc (by simp [child_rel])
      | vty e =>
        have hde : d.reg = e.reg := hR d e hc
        simp only [spapr_vio_find_by_reg_loop, hde]
        split
        · exact ⟨rfl, hc⟩
        · exact ih _ _

theorem get_default_loop_rel (R : VIOsPAPRVTYDevice → VIOsPAPRVTYDevice → Prop)
    (hR : ∀ d e, R d e → d.reg = e.reg) (l m : List DeviceState)
    (h : List.Forall₂ (child_rel R) l m) :
    ∀ (off : Nat) (sel sel2 : Option (Nat × VIOsPAPRVTYDevice)), ptr_rel R sel sel2 →
      ptr_rel R (spapr_vty_get_default_loop l off sel) (spapr_vty_get_default_loop m off sel2) := by
  induction h with
  | nil =>
    intro off sel sel2 hs
    exact hs
  | @cons c c2 rest rest2 hc _ ih =>
    intro off sel sel2 hs
    cases c with
    | other r =>
      cases c2 with
      | other s => exact ih _ _ _ hs
      | vty e => exact absurd hc (by simp [child_rel])
    | vty d =>
      cases c2 with
      | other s => exact absurd hc (by simp [child_rel])
      | vty e =>
        have hde : d.reg = e.reg := hR d e hc
        have hnew : ptr_rel R (some (off, d)) (some (off, e)) := ⟨rfl, hc⟩
        cases sel with
        | none =>
          cases sel2 with
          | none => exact ih _ _ _ hnew
          | some q => exact absurd hs (by simp [ptr_rel])
        | some p =>
          cases sel2 with
          | none => exact absurd hs (by simp [ptr_rel])
          | some q =>
            have hpq : p.2.reg = q.2.reg := hR _ _ hs.2
            simp only [spapr_vty_get_default_loop, hde, hpq]
            split
            · exact ih _ _ _ hnew
            · exact ih _ _ _ hs

theorem vty_lookup_rel (R : VIOsPAPRVTYDevice → VIOsPAPRVTYDevice → Prop)
    (hR : ∀ d e, R d e → d.reg = e.reg) (spapr spapr2 : sPAPREnvironment)
    (h : List.Forall₂ (child_rel R) spapr.vio_bus.children spapr2.vio_bus.children) (reg : Nat) :
    ptr_rel R (vty_lookup spapr reg) (vty_lookup spapr2 reg) := by
  have hf := find_by_reg_loop_rel R hR _ _ h 0 reg
  have hd := get_default_loop_rel R hR _ _ h 0 none none trivial
  unfold vty_lookup spapr_vio_find_by_reg spapr_vty_get_default
  cases h1 : spapr_vio_find_by_reg_loop spapr.vio_bus.children 0 reg with
  | none =>
    cases h2 : spapr_vio_find_by_reg_loop spapr2.vio_bus.children 0 reg with
    | none =>
      simp only []
      split
      · exact hd
      · exact trivial
    | some q =>
      rw [h1, h2] at hf
      exact absurd hf (by simp [ptr_rel])
  | some p =>
    cases h2 : spapr_vio_find_by_reg_loop spapr2.vio_bus.children 0 reg with
    | none =>
      rw [h1, h2] at hf
      exact absurd hf (by simp [ptr_rel])
    | some q =>
      rw [h1, h2] at hf
      exact hf

theorem children_rel_set (R : VIOsPAPRVTYDevice → VIOsPAPRVTYDevice → Prop) (hrefl : ∀ d, R d d)
    (l : List DeviceState) :
    ∀ (i : Nat) (d e : VIOsPAPRVTYDevice), l[i]? = some (DeviceState.vty d) → R d e →
      List.Forall₂ (child_rel R) l (l.set i (DeviceState.vty e)) := by
  have hcr : ∀ c, child_rel R c c := by
    intro c
    cases c with
    | vty d => exact hrefl d
    | other r => rfl
  induction l with
  | nil =>
    intro i d e h _
    simp at h
  | cons c rest ih =>
    intro i d e h hde
    cases i with
    | zero =>
      simp only [List.getElem?_cons_zero, Option.some.injEq] at h
      subst h
      simp only [List.set_cons_zero]
      refine List.Forall₂.cons hde ?_
      exact List.forall₂_same.2 (fun c _ => hcr c)
    | succ j =>
      simp only [List.getElem?_cons_succ] at h
      simp only [List.set_cons_succ]
      exact List.Forall₂.cons (hcr c) (ih j d e h hde)

theorem vty_lookup_store (spapr : sPAPREnvironment) (reg i : Nat) (sdev dev1 : VIOsPAPRVTYDevice)
    (hl : vty_lookup spapr reg = some (i, sdev)) (hreg : sdev.reg = dev1.reg) :
    vty_lookup (store_dev spapr i dev1) reg = some (i, dev1) := by
  have hs := vty_lookup_sound spapr reg i sdev hl
  have hrel := vty_lookup_rel (fun d e => d.reg = e.reg) (fun _ _ h => h) spapr
    (store_dev spapr i dev1)
    (children_rel_set (fun d e => d.reg = e.reg) (fun _ => rfl) _ i sdev dev1 hs hreg) reg
  rw [hl] at hrel
  cases h2 : vty_lookup (store_dev spapr i dev1) reg with
  | none =>
    rw [h2] at hrel
    exact absurd hrel (by simp [ptr_rel])
  | some q =>
    rw [h2] at hrel
    obtain ⟨j, e⟩ := q
    have hij : i = j := hrel.1
    subst hij
    have hs2 := vty_lookup_sound _ reg i e h2
    have hlt : i < spapr.vio_bus.children.length := by
      by_contra hc
      rw [List.getElem?_eq_none (by omega)] at hs
      exact absurd hs (by simp)
    simp only [store_dev, List.getElem?_set_self hlt, Option.some.injEq,
      DeviceState.vty.injEq] at hs2
    rw [hs2]

/-! ## Deliver, then read -/

/-- C6. Deliver/Read round trip: when a batch `b` of `k` bytes, `1 ≤ k ≤ 16`, is
delivered by `vty_receive` into an empty buffer (`in == out`), the delivery
returns, and one following `h_get_term_char` on that device returns `H_SUCCESS`
with count `k` and two words whose big-endian bytes, first word first, are `b`
in its order followed by `16 - k` zero bytes; delivering `0x41 .. 0x50` gives
count 16 and the words `0x4142434445464748` and `0x494A4B4C4D4E4F50`. -/
theorem deliver_read_roundtrip (spapr : sPAPREnvironment) (args : Nat → Nat) (i : Nat)
    (sdev : VIOsPAPRVTYDevice) (b : List Byte)
    (hl : vty_lookup spapr (args 0) = some (i, sdev))
    (hin : sdev.in_ < UINT32_SIZE) (hempty : sdev.in_ = sdev.out)
    (h1 : 1 ≤ b.length) (h16 : b.length ≤ 16) :
    ∃ dev1, vty_receive sdev b = RecvResult.done dev1 ∧
      (h_get_term_char (store_dev spapr i dev1) args).status = HStatus.H_SUCCESS ∧
      (h_get_term_char (store_dev spapr i dev1) args).args 0 = b.length ∧
      cpu_to_be64 ((h_get_term_char (store_dev spapr i dev1) args).args 1) ++
          cpu_to_be64 ((h_get_term_char (store_dev spapr i dev1) args).args 2)
        = b ++ List.replicate (16 - b.length) 0 ∧
      (b = [0x41, 0x42, 0x43, 0x44, 0x45, 0x46, 0x47, 0x48,
            0x49, 0x4A, 0x4B, 0x4C, 0x4D, 0x4E, 0x4F, 0x50] →
        (h_get_term_char (store_dev spapr i dev1) args).args 0 = 16 ∧
        (h_get_term_char (store_dev spapr i dev1) args).args 1 = 0x4142434445464748 ∧
        (h_get_term_char (store_dev spapr i dev1) args).args 2 = 0x494A4B4C4D4E4F50) := by
  have hout : sdev.out < UINT32_SIZE := hempty ▸ hin
  have hz : unread sdev = 0 := (sub32_eq_zero_iff _ _ hin hout).2 hempty
  have hne : b.length ≠ 0 := by omega
  obtain ⟨dev1, r1, r2, r3, r4, r5, _, _⟩ :=
    vty_receive_loop_fits b { sdev with qirq := sdev.qirq + 1 } 0 hin hout
      (by
        have hz2 : unread { sdev with qirq := sdev.qirq + 1 } = 0 := hz
        rw [hz2, Nat.zero_add]
        exact h16)
  have hq0 : queue { sdev with qirq := sdev.qirq + 1 } = [] := queue_empty _ hin hout hempty.symm
  rw [hq0, List.nil_append] at r2
  have hu1 : unread dev1 = b.length := by
    rw [← queue_length, r2]
  have hinv1 : UnreadInv dev1 := by
    refine ⟨?_, ?_, ?_⟩
    · rw [r4]
      exact Nat.mod_lt _ (by decide)
    · rw [r3]
      exact hout
    · rw [hu1]
      exact h16
  have hl1 : vty_lookup (store_dev spapr i dev1) (args 0) = some (i, dev1) :=
    vty_lookup_store spapr (args 0) i sdev dev1 hl r5.symm
  obtain ⟨g1, _, g3, g4, g5, _⟩ :=
    h_get_term_char_outputs (store_dev spapr i dev1) args i dev1 hl1 hinv1
  rw [r2, hu1] at g4 g5
  rw [hu1] at g3
  obtain ⟨c1, _, _⟩ := chunk_words b h16
  refine ⟨dev1, ?_, g1, g3, ?_, ?_⟩
  · unfold vty_receive
    rw [if_pos ⟨hempty, hne⟩]
    exact r1
  · rw [g4, g5]
    exact c1
  · intro hb
    rw [g3, g4, g5, hb]
    exact ⟨rfl, by decide, by decide⟩

theorem deliver_read_roundtrip_witness :
    ∃ dev1,
      vty_receive (initial_dev 2)
        [0x41, 0x42, 0x43, 0x44, 0x45, 0x46, 0x47, 0x48,
         0x49, 0x4A, 0x4B, 0x4C, 0x4D, 0x4E, 0x4F, 0x50] = RecvResult.done dev1 ∧
      (h_get_term_char (store_dev sample_spapr 2 dev1) (fun _ => 2)).args 1
        = 0x4142434445464748 := by
  obtain ⟨dev1, h1, _, _, _, h5⟩ :=
    deliver_read_roundtrip sample_spapr (fun _ => 2) 2 (initial_dev 2)
      [0x41, 0x42, 0x43, 0x44, 0x45, 0x46, 0x47, 0x48,
       0x49, 0x4A, 0x4B, 0x4C, 0x4D, 0x4E, 0x4F, 0x50]
      rfl (by decide) rfl (by decide) (by decide)
  exact ⟨dev1, h1, (h5 rfl).2.1⟩

/-! ## The write handler -/

theorem cpu_to_be64_decode (w : Nat) (h : w < 2 ^ 64) : be64_to_cpu (cpu_to_be64 w) = w := by
  simp only [cpu_to_be64, be64_to_cpu, toByte, List.foldl, Nat.zero_mul, Nat.zero_add,
    Nat.reducePow] at *
  omega

theorem cpu_to_be64_byte (w k : Nat) (hk : k < 8) :
    (cpu_to_be64 w)[k]?.map Fin.val = some (w / 256 ^ (7 - k) % 256) := by
  interval_cases k <;> simp [cpu_to_be64, toByte]

theorem cpu_to_be64_length (w : Nat) : (cpu_to_be64 w).length = 8 := rfl

/-- C7. Write handler payload: when the address resolves and `len ≤ 16`,
`h_put_term_char` returns `H_SUCCESS` and appends exactly one payload to the
write-through log of the resolved device, leaving everything else of the machine
as it was; the payload is the first `len` bytes of a 16-byte sequence whose byte
`k` is byte `k` of the first word counted from its most significant byte, and
whose byte `8 + k` is that byte of the second word (so that each half decodes
big-endian to its 64-bit word). Nothing is assumed about the ring buffer. -/
theorem h_put_term_char_payload (spapr : sPAPREnvironment) (args : Nat → Nat) (i : Nat)
    (sdev : VIOsPAPRVTYDevice) (hl : vty_lookup spapr (args 0) = some (i, sdev))
    (hlen : args 1 ≤ 16) :
    (h_put_term_char spapr args).status = HStatus.H_SUCCESS ∧
    spapr.vio_bus.children[i]? = some (DeviceState.vty sdev) ∧
    ∃ bytes : List Byte, bytes.length = 16 ∧
      (∀ k, k < 8 → bytes[k]?.map Fin.val = some (args 2 / 256 ^ (7 - k) % 256) ∧
        bytes[8 + k]?.map Fin.val = some (args 3 / 256 ^ (7 - k) % 256)) ∧
      (args 2 < 2 ^ 64 → be64_to_cpu (bytes.take 8) = args 2) ∧
      (args 3 < 2 ^ 64 → be64_to_cpu (bytes.drop 8) = args 3) ∧
      (h_put_term_char spapr args).spapr.vio_bus.children =
        spapr.vio_bus.children.set i
          (DeviceState.vty { sdev with chardev := sdev.chardev ++ [bytes.take (args 1)] }) := by
  have hlen2 : ¬ args 1 > 16 := by omega
  rw [h_put_term_char_written spapr args i sdev hl hlen2]
  refine ⟨rfl, vty_lookup_sound spapr _ i sdev hl,
    cpu_to_be64 (args 2) ++ cpu_to_be64 (args 3), rfl, ?_, ?_, ?_, rfl⟩
  · intro k hk
    constructor
    · rw [List.getElem?_append_left (by rw [cpu_to_be64_length]; exact hk)]
      exact cpu_to_be64_byte _ k hk
    · rw [List.getElem?_append_right (by rw [cpu_to_be64_length]; omega)]
      have he : 8 + k - (cpu_to_be64 (args 2)).length = k := by
        rw [cpu_to_be64_length]
        omega
      rw [he]
      exact cpu_to_be64_byte _ k hk
  · intro hw
    rw [List.take_left' (cpu_to_be64_length _)]
    exact cpu_to_be64_decode _ hw
  · intro hw
    rw [List.drop_left' (cpu_to_be64_length _)]
    exact cpu_to_be64_decode _ hw

theorem h_put_term_char_payload_witness :
    vty_lookup sample_spapr 5 = some (1, wrapped_dev) ∧
    (h_put_term_char sample_spapr
      (args_of [5, 3, 0x4142434445464748, 0x494A4B4C4D4E4F50])).status = HStatus.H_SUCCESS :=
  ⟨rfl, (h_put_term_char_payload sample_spapr
      (args_of [5, 3, 0x4142434445464748, 0x494A4B4C4D4E4F50]) 1 wrapped_dev rfl
      (by decide)).1⟩

/-- C8. An oversized write is rejected without effect: for every address,
resolving or not, every `len > 16` and any data words, `h_put_term_char` returns
`H_PARAMETER` and leaves the machine, the write-through logs of all devices
included, and the `args` array as they were. -/
theorem oversized_write_rejected (spapr : sPAPREnvironment) (args : Nat → Nat)
    (hlen : 16 < args 1) :
    (h_put_term_char spapr args).status = HStatus.H_PARAMETER ∧
    (h_put_term_char spapr args).spapr = spapr ∧
    (h_put_term_char spapr args).args = args := by
  cases hl : vty_lookup spapr (args 0) with
  | none =>
    rw [h_put_term_char_unresolved spapr args hl]
    exact ⟨rfl, rfl, rfl⟩
  | some p =>
    obtain ⟨i, sdev⟩ := p
    rw [h_put_term_char_oversized spapr args i sdev hl hlen]
    exact ⟨rfl, rfl, rfl⟩

theorem oversized_write_rejected_witness :
    vty_lookup sample_spapr 5 = some (1, wrapped_dev) ∧
    (h_put_term_char sample_spapr (args_of [5, 17, 1, 2])).status = HStatus.H_PARAMETER ∧
    (h_put_term_char sample_spapr (args_of [5, 17, 1, 2])).spapr = sample_spapr :=
  ⟨rfl, (oversized_write_rejected sample_spapr (args_of [5, 17, 1, 2]) (by decide)).1,
   (oversized_write_rejected sample_spapr (args_of [5, 17, 1, 2]) (by decide)).2.1⟩

/-- C9. Exact error conditions of the two handlers: `h_put_term_char` returns
`H_PARAMETER` exactly when the address does not resolve or `len > 16`, and
`H_SUCCESS` otherwise; `h_get_term_char` returns `H_PARAMETER` exactly when the
address does not resolve, and `H_SUCCESS` otherwise; a handler that returns
`H_PARAMETER` leaves the machine (cursors, buffers and write-through logs of
all devices) and the `args` array (no count, no data words) as they were. -/
theorem handler_error_conditions (spapr : sPAPREnvironment) (args : Nat → Nat) :
    ((h_put_term_char spapr args).status = HStatus.H_PARAMETER
      ↔ (vty_lookup spapr (args 0) = none ∨ 16 < args 1)) ∧
    ((h_put_term_char spapr args).status = HStatus.H_SUCCESS
      ↔ ¬ (vty_lookup spapr (args 0) = none ∨ 16 < args 1)) ∧
    ((h_get_term_char spapr args).status = HStatus.H_PARAMETER
      ↔ vty_lookup spapr (args 0) = none) ∧
    ((h_get_term_char spapr args).status = HStatus.H_SUCCESS
      ↔ ¬ vty_lookup spapr (args 0) = none) ∧
    ((h_put_term_char spapr args).status = HStatus.H_PARAMETER →
      (h_put_term_char spapr args).spapr = spapr ∧ (h_put_term_char spapr args).args = args) ∧
    ((h_get_term_char spapr args).status = HStatus.H_PARAMETER →
      (h_get_term_char spapr args).spapr = spapr ∧ (h_get_term_char spapr args).args = args) := by
  cases hl : vty_lookup spapr (args 0) with
  | none =>
    rw [h_put_term_char_unresolved spapr args hl, h_get_term_char_unresolved spapr args hl]
    simp
  | some p =>
    obtain ⟨i, sdev⟩ := p
    rw [h_get_term_char_resolved spapr args i sdev hl]
    by_cases hlen : args 1 > 16
    · rw [h_put_term_char_oversized spapr args i sdev hl hlen]
      simp [hlen]
    · rw [h_put_term_char_written spapr args i sdev hl hlen]
      simp [hlen]

/-! ## The write path and the ring -/

theorem vty_getchars_loop_congr (k : Nat) :
    ∀ (d e : VIOsPAPRVTYDevice) (n : Nat) (acc : List Byte),
      d.in_ = e.in_ → d.out = e.out → d.buf = e.buf →
      (vty_getchars_loop k d n acc).n = (vty_getchars_loop k e n acc).n ∧
      (vty_getchars_loop k d n acc).buf = (vty_getchars_loop k e n acc).buf := by
  induction k with
  | zero =>
    intro d e n acc _ _ _
    exact ⟨rfl, rfl⟩
  | succ k ih =>
    intro d e n acc h1 h2 h3
    simp only [vty_getchars_loop, h1, h2, h3]
    split
    · exact ih _ _ _ _ rfl rfl rfl
    · exact ⟨rfl, rfl⟩

/-- C10. Write bypasses the ring buffer: for every machine, address, `len` and
data words, `h_put_term_char`, whatever status it returns, leaves `in`, `out`
and `buf` of every device unchanged, and an `h_get_term_char` issued right after
it returns the same status, count and data words (the same `args` array) as it
would have returned without the preceding write. -/
theorem write_bypasses_ring (spapr : sPAPREnvironment) (args : Nat → Nat) :
    bus_ring (h_put_term_char spapr args).spapr = bus_ring spapr ∧
    ∀ args2 : Nat → Nat,
      (h_get_term_char (h_put_term_char spapr args).spapr args2).status
        = (h_get_term_char spapr args2).status ∧
      (h_get_term_char (h_put_term_char spapr args).spapr args2).args
        = (h_get_term_char spapr args2).args := by
  cases hl : vty_lookup spapr (args 0) with
  | none =>
    rw [h_put_term_char_unresolved spapr args hl]
    exact ⟨rfl, fun _ => ⟨rfl, rfl⟩⟩
  | some p =>
    obtain ⟨i, sdev⟩ := p
    by_cases hlen : args 1 > 16
    · rw [h_put_term_char_oversized spapr args i sdev hl hlen]
      exact ⟨rfl, fun _ => ⟨rfl, rfl⟩⟩
    · rw [h_put_term_char_written spapr args i sdev hl hlen]
      have hs := vty_lookup_sound spapr _ i sdev hl
      refine ⟨map_set_same DeviceState.ring _ i _ _ hs rfl, ?_⟩
      intro args2
      have hrel := vty_lookup_rel
        (fun d e => d.reg = e.reg ∧ d.in_ = e.in_ ∧ d.out = e.out ∧ d.buf = e.buf)
        (fun _ _ h => h.1) spapr
        (store_dev spapr i
          (vty_putchars sdev (cpu_to_be64 (args 2) ++ cpu_to_be64 (args 3)) (args 1)))
        (children_rel_set _ (fun _ => ⟨rfl, rfl, rfl, rfl⟩) _ i sdev _ hs ⟨rfl, rfl, rfl, rfl⟩)
        (args2 0)
      cases h1 : vty_lookup spapr (args2 0) with
      | none =>
        cases h2 : vty_lookup (store_dev spapr i
            (vty_putchars sdev (cpu_to_be64 (args 2) ++ cpu_to_be64 (args 3)) (args 1)))
            (args2 0) with
        | none =>
          rw [h_get_term_char_unresolved _ args2 h1, h_get_term_char_unresolved _ args2 h2]
          exact ⟨rfl, rfl⟩
        | some q =>
          rw [h1, h2] at hrel
          exact absurd hrel (by simp [ptr_rel])
      | some p1 =>
        cases h2 : vty_lookup (store_dev spapr i
            (vty_putchars sdev (cpu_to_be64 (args 2) ++ cpu_to_be64 (args 3)) (args 1)))
            (args2 0) with
        | none =>
          rw [h1, h2] at hrel
          exact absurd hrel (by simp [ptr_rel])
        | some q =>
          rw [h1, h2] at hrel
          obtain ⟨j, d⟩ := p1
          obtain ⟨j2, e⟩ := q
          obtain ⟨_, _, r1, r2, r3⟩ := hrel
          obtain ⟨hn, hb⟩ := vty_getchars_loop_congr (16 : Int).toNat d e 0 [] r1 r2 r3
          rw [h_get_term_char_resolved _ args2 j d h1, h_get_term_char_resolved _ args2 j2 e h2]
          simp only [vty_getchars, hn, hb, and_self]

/-! ## The default terminal -/

theorem get_default_loop_min (l : List DeviceState) :
    ∀ (off : Nat) (sel : Option (Nat × VIOsPAPRVTYDevice)) (i : Nat) (d : VIOsPAPRVTYDevice),
      spapr_vty_get_default_loop l off sel = some (i, d) →
      (∀ s, sel = some s → d.reg ≤ s.2.reg) ∧
      (∀ e, DeviceState.vty e ∈ l → d.reg ≤ e.reg) := by
  induction l with
  | nil =>
    intro off sel i d h
    simp only [spapr_vty_get_default_loop] at h
    refine ⟨?_, ?_⟩
    · intro s hs
      rw [h] at hs
      simp only [Option.some.injEq] at hs
      rw [← hs]
    · intro e he
      simp at he
  | cons c rest ih =>
    intro off sel i d h
    cases c with
    | other r =>
      simp only [spapr_vty_get_default_loop] at h
      obtain ⟨h1, h2⟩ := ih _ _ _ _ h
      refine ⟨h1, ?_⟩
      intro e he
      simp only [List.mem_cons, reduceCtorEq, false_or] at he
      exact h2 e he
    | vty sdev =>
      cases sel with
      | none =>
        simp only [spapr_vty_get_default_loop] at h
        obtain ⟨h1, h2⟩ := ih _ _ _ _ h
        have hsd : d.reg ≤ sdev.reg := h1 (off, sdev) rfl
        refine ⟨?_, ?_⟩
        · intro s hs
          exact absurd hs (by simp)
        · intro e he
          simp only [List.mem_cons, DeviceState.vty.injEq] at he
          rcases he with he | he
          · rw [he]
            exact hsd
          · exact h2 e he
      | some s0 =>
        simp only [spapr_vty_get_default_loop] at h
        split at h
        · rename_i hlt
          obtain ⟨h1, h2⟩ := ih _ _ _ _ h
          have hsd : d.reg ≤ sdev.reg := h1 (off, sdev) rfl
          refine ⟨?_, ?_⟩
          · intro s hs
            simp only [Option.some.injEq] at hs
            rw [← hs]
            omega
          · intro e he
            simp only [List.mem_cons, DeviceState.vty.injEq] at he
            rcases he with he | he
            · rw [he]
              exact hsd
            · exact h2 e he
        · rename_i hge
          obtain ⟨h1, h2⟩ := ih _ _ _ _ h
          have hs0 : d.reg ≤ s0.2.reg := h1 s0 rfl
          refine ⟨?_, ?_⟩
          · intro s hs
            simp only [Option.some.injEq] at hs
            rw [← hs]
            exact hs0
          · intro e he
            simp only [List.mem_cons, DeviceState.vty.injEq] at he
            rcases he with he | he
            · rw [he]
              omega
            · exact h2 e he

theorem get_default_loop_none (l : List DeviceState) :
    ∀ (off : Nat) (sel : Option (Nat × VIOsPAPRVTYDevice)),
      spapr_vty_get_default_loop l off sel = none ↔
        (sel = none ∧ ∀ d, DeviceState.vty d ∉ l) := by
  induction l with
  | nil =>
    intro off sel
    simp [spapr_vty_get_default_loop]
  | cons c rest ih =>
    intro off sel
    cases c with
    | other r =>
      simp only [spapr_vty_get_default_loop, ih, List.mem_cons, reduceCtorEq, false_or]
    | vty sdev =>
      cases sel with
      | none =>
        simp only [spapr_vty_get_default_loop, ih, reduceCtorEq, false_and, true_and,
          List.mem_cons, DeviceState.vty.injEq, not_or, false_iff, not_forall, not_and,
          not_not]
        exact ⟨sdev, fun h => absurd rfl h⟩
      | some s0 =>
        simp only [spapr_vty_get_default_loop]
        split
        · simp only [ih, reduceCtorEq, false_and]
        · simp only [ih, reduceCtorEq, false_and]

theorem get_default_loop_filter (l : List DeviceState) :
    ∀ (off off2 : Nat) (sel sel2 : Option (Nat × VIOsPAPRVTYDevice)),
      sel.map Prod.snd = sel2.map Prod.snd →
      (spapr_vty_get_default_loop l off sel).map Prod.snd =
        (spapr_vty_get_default_loop (l.filter DeviceState.is_vty) off2 sel2).map Prod.snd := by
  induction l with
  | nil =>
    intro off off2 sel sel2 h
    exact h
  | cons c rest ih =>
    intro off off2 sel sel2 h
    cases c with
    | other r =>
      simp only [spapr_vty_get_default_loop, List.filter, DeviceState.is_vty]
      exact ih _ _ _ _ h
    | vty sdev =>
      cases sel with
      | none =>
        cases sel2 with
        | none =>
          simp only [spapr_vty_get_default_loop, List.filter, DeviceState.is_vty]
          exact ih _ _ _ _ rfl
        | some s2 => exact absurd h (by simp)
      | some s1 =>
        cases sel2 with
        | none => exact absurd h (by simp)
        | some s2 =>
          simp only [Option.map_some', Option.some.injEq] at h
          simp only [spapr_vty_get_default_loop, List.filter, DeviceState.is_vty, h]
          split
          · exact ih _ _ _ _ rfl
          · exact ih _ _ _ _ (by simp only [Option.map_some', h])

/-- C11. Default selection returns the minimum: `spapr_vty_get_default` returns
`NULL` exactly when the child list holds no spapr-vty device; otherwise it
returns a spapr-vty device of the list whose `reg` is at most the `reg` of every
spapr-vty device of the list; and the device it returns is the one it returns on
the list with all other devices removed. -/
theorem get_default_minimum (bus : VIOsPAPRBus) :
    (spapr_vty_get_default bus = none ↔ ∀ d, DeviceState.vty d ∉ bus.children) ∧
    (∀ i d, spapr_vty_get_default bus = some (i, d) →
      bus.children[i]? = some (DeviceState.vty d) ∧
      ∀ e, DeviceState.vty e ∈ bus.children → d.reg ≤ e.reg) ∧
    (spapr_vty_get_default bus).map Prod.snd
      = (spapr_vty_get_default (vty_children bus)).map Prod.snd := by
  refine ⟨?_, ?_, ?_⟩
  · unfold spapr_vty_get_default
    rw [get_default_loop_none]
    simp only [true_and]
  · intro i d h
    unfold spapr_vty_get_default at h
    refine ⟨?_, (get_default_loop_min _ _ _ _ _ h).2⟩
    rcases get_default_loop_sound _ _ _ _ _ h with h1 | ⟨_, h1⟩
    · exact absurd h1 (by simp)
    · exact h1
  · exact get_default_loop_filter bus.children 0 0 none none rfl

/-! ## Guest address resolution -/

/-- C12. Guest address resolution: `vty_lookup(a)` returns the exact-match
device when the exact-match lookup for `a` succeeds; when that fails and
`a == 0` it returns the result of `spapr_vty_get_default`; when that fails and
`a != 0` it returns `NULL`. Over terminal devices registered with the addresses
5, 2 and 9, `vty_lookup(0)` returns the one with address 2, and over an empty
registry it returns `NULL`. -/
theorem vty_lookup_resolution (spapr : sPAPREnvironment) (a : Nat) :
    (∀ p, spapr_vio_find_by_reg spapr.vio_bus a = some p → vty_lookup spapr a = some p) ∧
    (spapr_vio_find_by_reg spapr.vio_bus a = none → a = 0 →
      vty_lookup spapr a = spapr_vty_get_default spapr.vio_bus) ∧
    (spapr_vio_find_by_reg spapr.vio_bus a = none → a ≠ 0 → vty_lookup spapr a = none) ∧
    (∀ d1 d2 d3 : VIOsPAPRVTYDevice, d1.reg = 5 → d2.reg = 2 → d3.reg = 9 →
      vty_lookup
        { vio_bus := { children :=
          [DeviceState.vty d1, DeviceState.vty d2, DeviceState.vty d3] } } 0
        = some (1, d2)) ∧
    vty_lookup sample_spapr 0 = some (2, initial_dev 2) ∧
    vty_lookup { vio_bus := { children := [] } } 0 = none := by
  refine ⟨?_, ?_, ?_, ?_, rfl, rfl⟩
  · intro p hp
    simp only [vty_lookup, hp]
  · intro hn h0
    subst h0
    simp only [vty_lookup, hn, if_true]
  · intro hn h0
    simp only [vty_lookup, hn, if_neg h0]
  · intro d1 d2 d3 h1 h2 h3
    simp [vty_lookup, spapr_vio_find_by_reg, spapr_vio_find_by_reg_loop, spapr_vty_get_default,
      spapr_vty_get_default_loop, h1, h2, h3]

/-! ## Flow control -/

theorem vty_receive_loop_overflow (buf : List Byte) :
    ∀ (dev : VIOsPAPRVTYDevice) (i : Nat), dev.in_ < UINT32_SIZE → dev.out < UINT32_SIZE →
      unread dev ≤ VTERM_BUFSIZE → VTERM_BUFSIZE < unread dev + buf.length →
      ∃ d, vty_receive_loop dev i buf = RecvResult.assert_failed (i + (16 - unread dev)) d ∧
        queue d = queue dev ++ buf.take (16 - unread dev) ∧
        d.in_ = (dev.in_ + (16 - unread dev)) % UINT32_SIZE ∧ d.out = dev.out := by
  induction buf with
  | nil =>
    intro dev i _ _ hu hov
    simp only [List.length_nil, Nat.add_zero] at hov
    omega
  | cons b rest ih =>
    intro dev i hin hout hu hov
    simp only [List.length_cons] at hov
    have hu16 : unread dev ≤ 16 := hu
    have hov16 : 16 < unread dev + (rest.length + 1) := hov
    by_cases hlt : sub32 dev.in_ dev.out < VTERM_BUFSIZE
    · have hs : unread
          { dev with buf := Function.update dev.buf (slot dev.in_) b, in_ := inc32 dev.in_ }
          = unread dev + 1 := sub32_inc_left _ _ hin hout hlt
      have hlt2 : unread dev < 16 := hlt
      obtain ⟨d, h1, h2, h3, h4⟩ :=
        ih { dev with buf := Function.update dev.buf (slot dev.in_) b, in_ := inc32 dev.in_ }
          (i + 1) (inc32_lt _) hout
          (by rw [hs]; exact hlt2)
          (by rw [hs]; show 16 < unread dev + 1 + rest.length; omega)
      rw [hs] at h1 h2 h3
      have he : 16 - unread dev = (16 - (unread dev + 1)) + 1 := by omega
      refine ⟨d, ?_, ?_, ?_, h4⟩
      · simp only [vty_receive_loop, if_pos hlt]
        rw [h1]
        congr 1
        omega
      · rw [h2, queue_enqueue dev b hin hout hlt, he, List.take_succ_cons, List.append_assoc]
        rfl
      · rw [h3]
        simp only [inc32, UINT32_SIZE]
        omega
    · have hfull : unread dev = 16 := by
        have : ¬ unread dev < 16 := hlt
        omega
      refine ⟨dev, ?_, ?_, ?_, rfl⟩
      · simp only [vty_receive_loop, if_neg hlt, hfull, Nat.sub_self, Nat.add_zero]
      · simp only [hfull, Nat.sub_self, List.take_zero, List.append_nil]
      · simp only [hfull, Nat.sub_self, Nat.add_zero]
        exact (Nat.mod_eq_of_lt hin).symm

/-- C13, as the claim states it, fails: with 15 bytes unread `vty_can_receive`
returns true, yet the assert of `vty_receive` fails on the second byte of a
batch of two. -/
theorem can_receive_then_overflow :
    UnreadInv almost_full_dev ∧ vty_can_receive almost_full_dev = true ∧
    (∃ d, vty_receive almost_full_dev [0, 0] = RecvResult.assert_failed 1 d) ∧
    ¬ ∃ dev1, vty_receive almost_full_dev [0, 0] = RecvResult.done dev1 := by
  have hfail : ∃ d, vty_receive almost_full_dev [0, 0] = RecvResult.assert_failed 1 d :=
    ⟨_, rfl⟩
  refine ⟨⟨by decide, by decide, by decide⟩, by decide, hfail, ?_⟩
  rintro ⟨dev1, h⟩
  obtain ⟨d, hd⟩ := hfail
  rw [hd] at h
  exact absurd h (by simp)

/-- C13, amended. `vty_can_receive` returns true exactly when
`(in - out) mod 2 ^ 32 < 16` (it is a function of the device and leaves it as it
is); and for every device satisfying the unread-byte invariant and every batch
of at most one byte, if `vty_can_receive` returned true immediately before the
delivery, `vty_receive` of that batch returns without failing its assert, the
batch being appended to the unread bytes. -/
theorem can_receive_guards_one_byte :
    (∀ dev : VIOsPAPRVTYDevice,
      vty_can_receive dev = true ↔ sub32 dev.in_ dev.out < VTERM_BUFSIZE) ∧
    (∀ (dev : VIOsPAPRVTYDevice) (b : List Byte), UnreadInv dev → b.length ≤ 1 →
      vty_can_receive dev = true →
      ∃ dev1, vty_receive dev b = RecvResult.done dev1 ∧ queue dev1 = queue dev ++ b) := by
  refine ⟨?_, ?_⟩
  · intro dev
    simp only [vty_can_receive, decide_eq_true_eq]
  · intro dev b hinv hlen hcan
    obtain ⟨hin, hout, _⟩ := hinv
    have hlt : unread dev < VTERM_BUFSIZE := by
      simp only [vty_can_receive, decide_eq_true_eq] at hcan
      exact hcan
    unfold vty_receive
    split
    · obtain ⟨dev1, h1, h2, _⟩ := vty_receive_loop_fits b { dev with qirq := dev.qirq + 1 } 0
        hin hout (by
          have : unread { dev with qirq := dev.qirq + 1 } = unread dev := rfl
          rw [this]
          omega)
      exact ⟨dev1, h1, h2⟩
    · obtain ⟨dev1, h1, h2, _⟩ := vty_receive_loop_fits b dev 0 hin hout (by omega)
      exact ⟨dev1, h1, h2⟩

/-! ## Delivery as a whole -/

theorem vty_receive_fits (dev : VIOsPAPRVTYDevice) (b : List Byte) (hinv : UnreadInv dev)
    (hfit : unread dev + b.length ≤ 16) :
    ∃ dev1, vty_receive dev b = RecvResult.done dev1 ∧ queue dev1 = queue dev ++ b ∧
      dev1.out = dev.out ∧ dev1.in_ = (dev.in_ + b.length) % UINT32_SIZE ∧
      dev1.reg = dev.reg ∧ dev1.chardev = dev.chardev := by
  obtain ⟨hin, hout, _⟩ := hinv
  unfold vty_receive
  split
  · obtain ⟨dev1, h1, h2, h3, h4, h5, _, h7⟩ :=
      vty_receive_loop_fits b { dev with qirq := dev.qirq + 1 } 0 hin hout hfit
    exact ⟨dev1, h1, h2, h3, h4, h5, h7⟩
  · obtain ⟨dev1, h1, h2, h3, h4, h5, _, h7⟩ := vty_receive_loop_fits b dev 0 hin hout hfit
    exact ⟨dev1, h1, h2, h3, h4, h5, h7⟩

theorem vty_receive_overflow (dev : VIOsPAPRVTYDevice) (b : List Byte) (hinv : UnreadInv dev)
    (hov : 16 < unread dev + b.length) :
    ∃ d, vty_receive dev b = RecvResult.assert_failed (16 - unread dev) d ∧
      queue d = queue dev ++ b.take (16 - unread dev) ∧
      d.in_ = (dev.in_ + (16 - unread dev)) % UINT32_SIZE ∧ d.out = dev.out := by
  obtain ⟨hin, hout, hu⟩ := hinv
  unfold vty_receive
  split
  · obtain ⟨d, h1, h2, h3, h4⟩ :=
      vty_receive_loop_overflow b { dev with qirq := dev.qirq + 1 } 0 hin hout hu hov
    rw [Nat.zero_add] at h1
    exact ⟨d, h1, h2, h3, h4⟩
  · obtain ⟨d, h1, h2, h3, h4⟩ := vty_receive_loop_overflow b dev 0 hin hout hu hov
    rw [Nat.zero_add] at h1
    exact ⟨d, h1, h2, h3, h4⟩

theorem vty_receive_qirq (dev : VIOsPAPRVTYDevice) (b : List Byte) :
    (vty_receive dev b).dev.qirq = dev.qirq + (if dev.in_ = dev.out ∧ b ≠ [] then 1 else 0) := by
  unfold vty_receive
  rw [(vty_receive_loop_frame b _ 0).1]
  by_cases hc : dev.in_ = dev.out ∧ b ≠ []
  · have hc2 : dev.in_ = dev.out ∧ b.length ≠ 0 :=
      ⟨hc.1, fun hl => hc.2 (List.length_eq_zero.1 hl)⟩
    rw [if_pos hc, if_pos hc2]
  · have hc2 : ¬ (dev.in_ = dev.out ∧ b.length ≠ 0) :=
      fun hl => hc ⟨hl.1, fun hn => hl.2 (by rw [hn]; rfl)⟩
    rw [if_neg hc, if_neg hc2]
    rfl

/-! ## The order of the stored cursors -/

theorem round_run (dev : VIOsPAPRVTYDevice) (he : dev.in_ = dev.out)
    (hin : dev.in_ < UINT32_SIZE) :
    ∃ d2, d2.in_ = (dev.in_ + 16) % UINT32_SIZE ∧ d2.out = d2.in_ ∧
      ∀ ops, run dev (Op.receive (List.replicate 16 0) :: Op.getchars 16 :: ops)
        = run d2 ops := by
  have hout : dev.out < UINT32_SIZE := he ▸ hin
  have hz : unread dev = 0 := (sub32_eq_zero_iff _ _ hin hout).2 he
  have hinv : UnreadInv dev := ⟨hin, hout, by rw [hz]; exact Nat.zero_le _⟩
  obtain ⟨d1, r1, r2, r3, r4, _, _⟩ :=
    vty_receive_fits dev (List.replicate 16 0) hinv (by rw [hz]; simp)
  simp only [List.length_replicate] at r4
  have hu1 : unread d1 = 16 := by
    rw [← queue_length, r2, queue_empty dev hin hout he.symm]
    simp
  have hinv1 : UnreadInv d1 :=
    ⟨by rw [r4]; exact Nat.mod_lt _ (by decide), by rw [r3]; exact hout,
     by rw [hu1]⟩
  obtain ⟨_, _, g3⟩ := vty_getchars_16 d1 hinv1
  refine ⟨(vty_getchars d1 16).dev, ?_, ?_, ?_⟩
  · rw [g3]
    exact r4
  · rw [g3]
    simp only [hu1, r3, r4, UINT32_SIZE, ← he]
  · intro ops
    simp only [run, step, r1]

theorem rounds_run (n : Nat) :
    ∀ (dev : VIOsPAPRVTYDevice), dev.in_ = dev.out → dev.in_ < UINT32_SIZE →
      ∃ d, d.in_ = (dev.in_ + 16 * n) % UINT32_SIZE ∧ d.out = d.in_ ∧
        ∀ ops, run dev (rounds n ++ ops) = run d ops := by
  induction n with
  | zero =>
    intro dev he hin
    refine ⟨dev, ?_, he.symm, fun _ => rfl⟩
    simp only [Nat.mul_zero, Nat.add_zero]
    exact (Nat.mod_eq_of_lt hin).symm
  | succ n ih =>
    intro dev he hin
    obtain ⟨d2, a1, a2, a3⟩ := round_run dev he hin
    obtain ⟨d, b1, b2, b3⟩ := ih d2 a2.symm (by rw [a1]; exact Nat.mod_lt _ (by decide))
    refine ⟨d, ?_, b2, ?_⟩
    · rw [b1, a1]
      simp only [UINT32_SIZE]
      omega
    · intro ops
      simp only [rounds, List.cons_append]
      rw [a3, b3]

/-- C14, as the claim states it, fails: the run that delivers `2 ^ 32` bytes in
batches of 16, each batch but the last being read before the next arrives,
trips no assert and ends with the write cursor wrapped to `0` and the read
cursor at `2 ^ 32 - 16`. -/
theorem cursor_order_lost_at_wrap :
    ∃ dev1, run (initial_dev 0) wrap_run = some dev1 ∧ dev1.in_ = 0 ∧
      dev1.out = 4294967280 ∧ ¬ dev1.out ≤ dev1.in_ := by
  obtain ⟨d, h1, h2, h3⟩ := rounds_run 268435455 (initial_dev 0) rfl (by decide)
  have hdin : d.in_ = 4294967280 := by
    rw [h1]
    rfl
  have hinv : UnreadInv d := by
    refine ⟨by rw [hdin]; decide, by rw [h2, hdin]; decide, ?_⟩
    have hz : unread d = 0 :=
      (sub32_eq_zero_iff _ _ (by rw [hdin]; decide) (by rw [h2, hdin]; decide)).2 h2.symm
    rw [hz]
    exact Nat.zero_le _
  have hz : unread d = 0 := (sub32_eq_zero_iff _ _ hinv.1 hinv.2.1).2 h2.symm
  obtain ⟨d1, r1, _, r3, r4, _, _⟩ :=
    vty_receive_fits d (List.replicate 16 0) hinv (by rw [hz]; simp)
  have hin1 : d1.in_ = 0 := by
    rw [r4, hdin]
    rfl
  have hout1 : d1.out = 4294967280 := by rw [r3, h2, hdin]
  refine ⟨d1, ?_, hin1, hout1, ?_⟩
  · unfold wrap_run
    rw [h3]
    simp only [run, step, r1]
  · rw [hin1, hout1]
    decide

theorem vty_receive_loop_nowrap (buf : List Byte) :
    ∀ (dev : VIOsPAPRVTYDevice) (i : Nat) (dev1 : VIOsPAPRVTYDevice),
      dev.in_ + buf.length < UINT32_SIZE →
      vty_receive_loop dev i buf = RecvResult.done dev1 →
      dev1.in_ = dev.in_ + buf.length ∧ dev1.out = dev.out := by
  induction buf with
  | nil =>
    intro dev i dev1 _ h
    simp only [vty_receive_loop, RecvResult.done.injEq] at h
    rw [← h]
    exact ⟨rfl, rfl⟩
  | cons b rest ih =>
    intro dev i dev1 hb h
    simp only [List.length_cons] at hb
    simp only [vty_receive_loop] at h
    split at h
    · have hinc : inc32 dev.in_ = dev.in_ + 1 := by
        simp only [inc32, UINT32_SIZE] at *
        omega
      obtain ⟨h1, h2⟩ := ih _ _ _ (by
        show inc32 dev.in_ + rest.length < UINT32_SIZE
        rw [hinc]
        omega) h
      refine ⟨?_, h2⟩
      rw [h1]
      show inc32 dev.in_ + rest.length = dev.in_ + (rest.length + 1)
      rw [hinc]
      omega
    · exact absurd h (by simp)

theorem vty_getchars_loop_nowrap (k : Nat) :
    ∀ (dev : VIOsPAPRVTYDevice) (n : Nat) (acc : List Byte),
      dev.out ≤ dev.in_ → dev.in_ < UINT32_SIZE →
      (vty_getchars_loop k dev n acc).dev.out ≤ (vty_getchars_loop k dev n acc).dev.in_ ∧
      (vty_getchars_loop k dev n acc).dev.in_ = dev.in_ := by
  induction k with
  | zero =>
    intro dev n acc h _
    exact ⟨h, rfl⟩
  | succ k ih =>
    intro dev n acc h hin
    simp only [vty_getchars_loop]
    split
    · rename_i hne
      have hinc : inc32 dev.out = dev.out + 1 := by
        simp only [inc32, UINT32_SIZE] at *
        omega
      exact ih { dev with out := inc32 dev.out } _ _ (by
        show inc32 dev.out ≤ dev.in_
        rw [hinc]
        omega) hin
    · exact ⟨h, rfl⟩

theorem run_nowrap (ops : List Op) :
    ∀ (dev dev1 : VIOsPAPRVTYDevice), dev.out ≤ dev.in_ →
      dev.in_ + received ops < UINT32_SIZE → run dev ops = some dev1 →
      dev1.out ≤ dev1.in_ ∧ dev1.in_ = dev.in_ + received ops := by
  induction ops with
  | nil =>
    intro dev dev1 h _ hr
    simp only [run, Option.some.injEq] at hr
    rw [← hr]
    exact ⟨h, rfl⟩
  | cons op ops ih =>
    intro dev dev1 h hb hr
    cases op with
    | receive buf =>
      simp only [received] at hb
      simp only [run, step] at hr
      split at hr
      · exact absurd hr (by simp)
      · rename_i d hd
        split at hd
        · rename_i d0 hd0
          simp only [Option.some.injEq] at hd
          subst hd
          unfold vty_receive at hd0
          have hnw := vty_receive_loop_nowrap buf _ 0 d0 (by
            split
            · show dev.in_ + buf.length < UINT32_SIZE
              omega
            · omega) hd0
          have h1 : d0.in_ = dev.in_ + buf.length := by
            rw [hnw.1]
            split <;> rfl
          have h2 : d0.out = dev.out := by
            rw [hnw.2]
            split <;> rfl
          obtain ⟨g1, g2⟩ := ih d0 dev1 (by omega) (by omega) hr
          exact ⟨g1, by rw [g2, h1, received]; omega⟩
        · exact absurd hd (by simp)
    | getchars max =>
      simp only [received] at hb
      simp only [run, step] at hr
      obtain ⟨h1, h2⟩ := vty_getchars_loop_nowrap max.toNat dev 0 [] h (by omega)
      obtain ⟨g1, g2⟩ := ih (vty_getchars dev max).dev dev1 h1
        (by
          have : (vty_getchars dev max).dev.in_ = dev.in_ := h2
          rw [this]
          exact hb) hr
      refine ⟨g1, ?_⟩
      have : (vty_getchars dev max).dev.in_ = dev.in_ := h2
      rw [g2, this, received]
    | putchars buf len =>
      simp only [received] at hb
      simp only [run, step] at hr
      obtain ⟨g1, g2⟩ := ih (vty_putchars dev buf len) dev1 h hb hr
      exact ⟨g1, by rw [g2, received]; rfl⟩

/-- C14, amended. In every state reached from the initial state (`in = out = 0`)
by a finite sequence of non-aborting `vty_receive` calls and `vty_getchars`
calls (and `vty_putchars` calls) that delivers fewer than `2 ^ 32` bytes in all,
the stored read cursor does not exceed the stored write cursor, which is the
number of bytes delivered. -/
theorem cursor_order_before_wrap (dev dev1 : VIOsPAPRVTYDevice) (ops : List Op)
    (hin : dev.in_ = 0) (hout : dev.out = 0) (hrun : run dev ops = some dev1)
    (htotal : received ops < UINT32_SIZE) :
    dev1.out ≤ dev1.in_ ∧ dev1.in_ = received ops := by
  obtain ⟨h1, h2⟩ := run_nowrap ops dev dev1 (by rw [hin, hout]) (by rw [hin]; omega) hrun
  exact ⟨h1, by rw [h2, hin, Nat.zero_add]⟩

theorem cursor_order_before_wrap_witness :
    ∃ dev1, run (initial_dev 0) [Op.receive [1, 2, 3], Op.getchars 2, Op.receive [4]]
        = some dev1 ∧ dev1.out ≤ dev1.in_ :=
  ⟨_, rfl, (cursor_order_before_wrap (initial_dev 0) _
    [Op.receive [1, 2, 3], Op.getchars 2, Op.receive [4]] rfl rfl rfl (by decide)).1⟩

/-! ## The overflow condition -/

/-- C15. Exact overflow condition: on a device satisfying the unread-byte
invariant with `u` unread bytes, `vty_receive` of a batch of `s` bytes fails its
assert if and only if `s > 16 - u`; when it returns, `in` has advanced by exactly
`s` (modulo `2 ^ 32`), `out` is unchanged and the batch is appended to the unread
bytes; when it fails, it fails at byte number `16 - u` (counted from 0) of the
batch, the `16 - u` bytes before it having been stored. -/
theorem receive_overflow_exact (dev : VIOsPAPRVTYDevice) (b : List Byte)
    (hinv : UnreadInv dev) :
    ((∃ i d, vty_receive dev b = RecvResult.assert_failed i d) ↔ 16 - unread dev < b.length) ∧
    (∀ dev1, vty_receive dev b = RecvResult.done dev1 →
      dev1.in_ = (dev.in_ + b.length) % UINT32_SIZE ∧ dev1.out = dev.out ∧
      queue dev1 = queue dev ++ b) ∧
    (∀ i d, vty_receive dev b = RecvResult.assert_failed i d →
      i = 16 - unread dev ∧ queue d = queue dev ++ b.take (16 - unread dev) ∧
      d.in_ = (dev.in_ + (16 - unread dev)) % UINT32_SIZE ∧ d.out = dev.out) := by
  have hu : unread dev ≤ 16 := hinv.2.2
  by_cases hfit : unread dev + b.length ≤ 16
  · obtain ⟨dev1, h1, h2, h3, h4, _, _⟩ := vty_receive_fits dev b hinv hfit
    rw [h1]
    refine ⟨?_, ?_, ?_⟩
    · constructor
      · rintro ⟨i, d, h⟩
        exact absurd h (by simp)
      · intro h
        omega
    · intro d hd
      simp only [RecvResult.done.injEq] at hd
      rw [← hd]
      exact ⟨h4, h3, h2⟩
    · intro i d h
      exact absurd h (by simp)
  · obtain ⟨d0, h1, h2, h3, h4⟩ := vty_receive_overflow dev b hinv (by omega)
    rw [h1]
    refine ⟨?_, ?_, ?_⟩
    · constructor
      · intro _
        omega
      · intro _
        exact ⟨_, _, rfl⟩
    · intro d hd
      exact absurd hd (by simp)
    · intro i d h
      simp only [RecvResult.assert_failed.injEq] at h
      obtain ⟨hi, hd⟩ := h
      rw [← hi, ← hd]
      exact ⟨rfl, h2, h3, h4⟩

theorem receive_overflow_exact_witness :
    UnreadInv almost_full_dev ∧
    ((∃ i d, vty_receive almost_full_dev [7, 8] = RecvResult.assert_failed i d)
      ↔ 16 - unread almost_full_dev < [(7 : Byte), 8].length) :=
  ⟨⟨by decide, by decide, by decide⟩,
   (receive_overflow_exact almost_full_dev [7, 8] ⟨by decide, by decide, by decide⟩).1⟩

/-! ## Ties of the default terminal -/

theorem get_default_loop_first (l : List DeviceState) :
    ∀ (off : Nat) (sel : Option (Nat × VIOsPAPRVTYDevice)) (i : Nat) (d : VIOsPAPRVTYDevice),
      spapr_vty_get_default_loop l off sel = some (i, d) →
      sel = some (i, d) ∨
      (off ≤ i ∧ (∀ s, sel = some s → d.reg < s.2.reg) ∧
        ∀ j e, j < i - off → l[j]? = some (DeviceState.vty e) → d.reg < e.reg) := by
  induction l with
  | nil =>
    intro off sel i d h
    simp only [spapr_vty_get_default_loop] at h
    exact Or.inl h
  | cons c rest ih =>
    intro off sel i d h
    cases c with
    | other r =>
      simp only [spapr_vty_get_default_loop] at h
      rcases ih _ _ _ _ h with h1 | ⟨h1, h2, h3⟩
      · exact Or.inl h1
      · refine Or.inr ⟨by omega, h2, ?_⟩
        intro j e hj hje
        cases j with
        | zero => simp at hje
        | succ j =>
          simp only [List.getElem?_cons_succ] at hje
          exact h3 j e (by omega) hje
    | vty sdev =>
      have hnew : ∀ (s0 : Option (Nat × VIOsPAPRVTYDevice)),
          (∀ s, s0 = some s → sdev.reg < s.2.reg) →
          spapr_vty_get_default_loop rest (off + 1) (some (off, sdev)) = some (i, d) →
          off ≤ i ∧ (∀ s, s0 = some s → d.reg < s.2.reg) ∧
            ∀ j e, j < i - off → (DeviceState.vty sdev :: rest)[j]? = some (DeviceState.vty e) →
              d.reg < e.reg := by
        intro s0 hs0 h1
        rcases ih _ _ _ _ h1 with h2 | ⟨h2, h3, h4⟩
        · simp only [Option.some.injEq, Prod.mk.injEq] at h2
          obtain ⟨h5, h6⟩ := h2
          subst h5 h6
          refine ⟨Nat.le_refl _, hs0, ?_⟩
          intro j e hj _
          omega
        · have hd : d.reg < sdev.reg := h3 (off, sdev) rfl
          refine ⟨by omega, ?_, ?_⟩
          · intro s hs
            have := hs0 s hs
            omega
          · intro j e hj hje
            cases j with
            | zero =>
              simp only [List.getElem?_cons_zero, Option.some.injEq,
                DeviceState.vty.injEq] at hje
              rw [← hje]
              exact hd
            | succ j =>
              simp only [List.getElem?_cons_succ] at hje
              exact h4 j e (by omega) hje
      cases sel with
      | none =>
        simp only [spapr_vty_get_default_loop] at h
        exact Or.inr (hnew none (fun s hs => absurd hs (by simp)) h)
      | some s0 =>
        simp only [spapr_vty_get_default_loop] at h
        split at h
        · rename_i hlt
          refine Or.inr (hnew (some s0) ?_ h)
          intro s hs
          simp only [Option.some.injEq] at hs
          rw [← hs]
          exact hlt
        · rename_i hge
          rcases ih _ _ _ _ h with h1 | ⟨h1, h2, h3⟩
          · exact Or.inl h1
          · have hd : d.reg < s0.2.reg := h2 s0 rfl
            refine Or.inr ⟨by omega, h2, ?_⟩
            intro j e hj hje
            cases j with
            | zero =>
              simp only [List.getElem?_cons_zero, Option.some.injEq,
                DeviceState.vty.injEq] at hje
              rw [← hje]
              omega
            | succ j =>
              simp only [List.getElem?_cons_succ] at hje
              exact h3 j e (by omega) hje

/-- C16. Tie-break of the default selection: the device `spapr_vty_get_default`
returns has the lowest `reg` of the spapr-vty devices of the child list, every
spapr-vty device before it in the list has a strictly higher `reg`, so that of
several devices sharing the minimum the one occurring earliest is returned; and
every call on the same list returns that same device. -/
theorem default_first_registered (bus : VIOsPAPRBus) (i : Nat) (d : VIOsPAPRVTYDevice)
    (h : spapr_vty_get_default bus = some (i, d)) :
    bus.children[i]? = some (DeviceState.vty d) ∧
    (∀ e, DeviceState.vty e ∈ bus.children → d.reg ≤ e.reg) ∧
    (∀ j e, j < i → bus.children[j]? = some (DeviceState.vty e) → d.reg < e.reg) ∧
    (∀ j e, bus.children[j]? = some (DeviceState.vty e) → e.reg = d.reg → i ≤ j) ∧
    (∀ r, r = spapr_vty_get_default bus → r = some (i, d)) := by
  have hfirst : ∀ j e, j < i → bus.children[j]? = some (DeviceState.vty e) →
      d.reg < e.reg := by
    intro j e hj hje
    rcases get_default_loop_first _ _ _ _ _ h with h1 | ⟨_, _, h3⟩
    · exact absurd h1 (by simp)
    · exact h3 j e (by omega) hje
  refine ⟨?_, (get_default_loop_min _ _ _ _ _ h).2, hfirst, ?_, ?_⟩
  · rcases get_default_loop_sound _ _ _ _ _ h with h1 | ⟨_, h1⟩
    · exact absurd h1 (by simp)
    · exact h1
  · intro j e hje hreg
    by_contra hc
    have := hfirst j e (by omega) hje
    omega
  · intro r hr
    rw [hr, h]

theorem default_first_registered_witness :
    spapr_vty_get_default tie_bus = some (2, initial_dev 1) ∧
    (∀ j e, tie_bus.children[j]? = some (DeviceState.vty e) → e.reg = (initial_dev 1).reg →
      2 ≤ j) :=
  ⟨rfl, (default_first_registered tie_bus 2 (initial_dev 1) rfl).2.2.2.1⟩

/-! ## Notification over whole runs -/

theorem vty_getchars_loop_empty (k : Nat) (dev : VIOsPAPRVTYDevice) (n : Nat)
    (acc : List Byte) (he : dev.out = dev.in_) :
    vty_getchars_loop k dev n acc = ⟨dev, n, acc⟩ := by
  cases k with
  | zero => rfl
  | succ k => simp only [vty_getchars_loop, he, ne_eq, not_true_eq_false, if_false]

theorem step_qirq (dev dev1 : VIOsPAPRVTYDevice) (op : Op) (hinv : UnreadInv dev)
    (hs : step dev op = some dev1) :
    dev1.qirq = dev.qirq + (if unread dev = 0 ∧ 0 < unread dev1 then 1 else 0) := by
  obtain ⟨hin, hout, hu⟩ := hinv
  have hu16 : unread dev ≤ 16 := hu
  have hz : unread dev = 0 ↔ dev.in_ = dev.out := sub32_eq_zero_iff _ _ hin hout
  cases op with
  | receive b =>
    simp only [step] at hs
    split at hs
    · rename_i d hd
      simp only [Option.some.injEq] at hs
      subst hs
      have hq := vty_receive_qirq dev b
      rw [hd] at hq
      simp only [RecvResult.dev] at hq
      rw [hq]
      by_cases hfit : unread dev + b.length ≤ 16
      · obtain ⟨d1, h1, h2, _⟩ := vty_receive_fits dev b ⟨hin, hout, hu⟩ hfit
        rw [hd] at h1
        simp only [RecvResult.done.injEq] at h1
        subst h1
        have hlen : unread d = unread dev + b.length := by
          rw [← queue_length, h2, List.length_append, queue_length]
        have hb : b ≠ [] ↔ b.length ≠ 0 := by
          rw [ne_eq, ne_eq, List.length_eq_zero]
        by_cases hc : dev.in_ = dev.out ∧ b ≠ []
        · have hc2 : unread dev = 0 ∧ 0 < unread d := by
            refine ⟨hz.2 hc.1, ?_⟩
            have := hb.1 hc.2
            omega
          rw [if_pos hc, if_pos hc2]
        · have hc2 : ¬ (unread dev = 0 ∧ 0 < unread d) := by
            intro hcc
            apply hc
            refine ⟨hz.1 hcc.1, hb.2 ?_⟩
            have := hcc.1
            have := hcc.2
            omega
          rw [if_neg hc, if_neg hc2]
      · obtain ⟨d0, h1, _⟩ := vty_receive_overflow dev b ⟨hin, hout, hu⟩ (by omega)
        rw [hd] at h1
        exact absurd h1 (by simp)
    · exact absurd hs (by simp)
  | getchars max =>
    simp only [step, Option.some.injEq] at hs
    subst hs
    have hq : (vty_getchars dev max).dev.qirq = dev.qirq :=
      (vty_getchars_loop_frame _ dev 0 []).1
    rw [hq]
    have hc2 : ¬ (unread dev = 0 ∧ 0 < unread (vty_getchars dev max).dev) := by
      intro hcc
      have he : dev.out = dev.in_ := (hz.1 hcc.1).symm
      have hsame : (vty_getchars dev max).dev = dev := by
        unfold vty_getchars
        rw [vty_getchars_loop_empty _ dev 0 [] he]
      rw [hsame] at hcc
      omega
    rw [if_neg hc2]
    rfl
  | putchars buf len =>
    simp only [step, Option.some.injEq] at hs
    subst hs
    have hc2 : ¬ (unread dev = 0 ∧ 0 < unread (vty_putchars dev buf len)) := by
      intro hcc
      have hsame : unread (vty_putchars dev buf len) = unread dev := rfl
      rw [hsame] at hcc
      omega
    rw [if_neg hc2]
    rfl

theorem run_qirq (ops : List Op) :
    ∀ (dev dev1 : VIOsPAPRVTYDevice), UnreadInv dev → run dev ops = some dev1 →
      dev1.qirq = dev.qirq + empty_to_nonempty dev ops := by
  induction ops with
  | nil =>
    intro dev dev1 _ hr
    simp only [run, Option.some.injEq] at hr
    rw [← hr]
    rfl
  | cons op ops ih =>
    intro dev dev1 hinv hr
    simp only [run] at hr
    split at hr
    · exact absurd hr (by simp)
    · rename_i d hd
      have h1 := step_qirq dev d op hinv hd
      have h2 := ih d dev1 (step_inv dev d op hinv hd) hr
      simp only [empty_to_nonempty, hd]
      rw [h2, h1]
      omega

/-- C17. Notification as an edge signal over whole runs: for every finite run
from the initial state (`in = out = 0`) made of non-aborting `vty_receive` calls
with batches of any length, `vty_getchars` calls (and `vty_putchars` calls), the
number of pulses raised equals the number of steps at which the unread count
changes from `0` to a positive value, and a step that starts with a non-empty
buffer raises none. Delivering 3 bytes into the empty buffer raises one pulse,
2 more bytes none, and after reading all 5 one more byte raises one. -/
theorem notify_edge_over_runs :
    (∀ (dev dev1 : VIOsPAPRVTYDevice) (ops : List Op), dev.in_ = 0 → dev.out = 0 →
      run dev ops = some dev1 → dev1.qirq = dev.qirq + empty_to_nonempty dev ops) ∧
    (∀ (dev dev1 : VIOsPAPRVTYDevice) (op : Op), UnreadInv dev → step dev op = some dev1 →
      dev.in_ ≠ dev.out → dev1.qirq = dev.qirq) ∧
    (run (initial_dev 0) [Op.receive [1, 2, 3]]).map VIOsPAPRVTYDevice.qirq = some 1 ∧
    (run (initial_dev 0) [Op.receive [1, 2, 3], Op.receive [4, 5]]).map
      VIOsPAPRVTYDevice.qirq = some 1 ∧
    (run (initial_dev 0) [Op.receive [1, 2, 3], Op.receive [4, 5], Op.getchars 5]).map
      VIOsPAPRVTYDevice.qirq = some 1 ∧
    (run (initial_dev 0)
      [Op.receive [1, 2, 3], Op.receive [4, 5], Op.getchars 5, Op.receive [6]]).map
      VIOsPAPRVTYDevice.qirq = some 2 ∧
    empty_to_nonempty (initial_dev 0)
      [Op.receive [1, 2, 3], Op.receive [4, 5], Op.getchars 5, Op.receive [6]] = 2 := by
  refine ⟨?_, ?_, rfl, rfl, rfl, rfl, by decide⟩
  · intro dev dev1 ops hin hout hrun
    refine run_qirq ops dev dev1 ⟨?_, ?_, ?_⟩ hrun
    · rw [hin]; decide
    · rw [hout]; decide
    · simp only [unread, hin, hout]; decide
  · intro dev dev1 op hinv hs hne
    rw [step_qirq dev dev1 op hinv hs]
    have hz : ¬ unread dev = 0 := fun h =>
      hne ((sub32_eq_zero_iff _ _ hinv.1 hinv.2.1).1 h)
    have hc : ¬ (unread dev = 0 ∧ 0 < unread dev1) := fun h => hz h.1
    rw [if_neg hc]
    rfl

/-! ## A read drains the device -/

/-- C18. A successful Read drains the device: when the address resolves to a
device satisfying the unread-byte invariant, `h_get_term_char` returns
`H_SUCCESS` and leaves that device with `out == in`; the address still resolves
to it, a second Read of that address with no delivery in between returns
`H_SUCCESS` with count `0` and both words `0`, and the next delivery of a
non-empty batch pulses the interrupt line. -/
theorem read_drains_device (spapr : sPAPREnvironment) (args : Nat → Nat) (i : Nat)
    (sdev : VIOsPAPRVTYDevice) (hl : vty_lookup spapr (args 0) = some (i, sdev))
    (hinv : UnreadInv sdev) :
    (h_get_term_char spapr args).status = HStatus.H_SUCCESS ∧
    ∃ d1, (h_get_term_char spapr args).spapr.vio_bus.children[i]? = some (DeviceState.vty d1) ∧
      vty_lookup (h_get_term_char spapr args).spapr (args 0) = some (i, d1) ∧
      d1.out = d1.in_ ∧ d1.in_ = sdev.in_ ∧
      (∀ args2 : Nat → Nat, args2 0 = args 0 →
        (h_get_term_char (h_get_term_char spapr args).spapr args2).status = HStatus.H_SUCCESS ∧
        (h_get_term_char (h_get_term_char spapr args).spapr args2).args 0 = 0 ∧
        (h_get_term_char (h_get_term_char spapr args).spapr args2).args 1 = 0 ∧
        (h_get_term_char (h_get_term_char spapr args).spapr args2).args 2 = 0) ∧
      (∀ b : List Byte, b ≠ [] → (vty_receive d1 b).dev.qirq = d1.qirq + 1) := by
  obtain ⟨g1, g2, _⟩ := h_get_term_char_outputs spapr args i sdev hl hinv
  obtain ⟨hin, hout, hu⟩ := hinv
  have hs := vty_lookup_sound spapr _ i sdev hl
  have hlt : i < spapr.vio_bus.children.length := by
    by_contra hc
    rw [List.getElem?_eq_none (by omega)] at hs
    exact absurd hs (by simp)
  have hdrain : (sdev.out + unread sdev) % UINT32_SIZE = sdev.in_ := by
    simp only [unread, sub32, UINT32_SIZE] at *
    omega
  have hl1 := vty_lookup_store spapr (args 0) i sdev
    { sdev with out := (sdev.out + unread sdev) % UINT32_SIZE } hl rfl
  have hz1 : unread { sdev with out := (sdev.out + unread sdev) % UINT32_SIZE } = 0 :=
    (sub32_eq_zero_iff _ _ hin (Nat.mod_lt _ (by decide))).2 hdrain.symm
  have hinv1 : UnreadInv { sdev with out := (sdev.out + unread sdev) % UINT32_SIZE } :=
    ⟨hin, Nat.mod_lt _ (by decide), by rw [hz1]; exact Nat.zero_le _⟩
  have hq1 : queue { sdev with out := (sdev.out + unread sdev) % UINT32_SIZE } = [] :=
    List.length_eq_zero.1 ((queue_length _).trans hz1)
  rw [g2]
  refine ⟨g1, { sdev with out := (sdev.out + unread sdev) % UINT32_SIZE }, ?_, hl1, hdrain,
    rfl, ?_, ?_⟩
  · simp only [store_dev, List.getElem?_set_self hlt]
  · intro args2 h0
    obtain ⟨k1, _, k3, k4, k5, _⟩ :=
      h_get_term_char_outputs _ args2 i _ (h0 ▸ hl1) hinv1
    rw [hz1, hq1] at k4 k5
    rw [hz1] at k3
    refine ⟨k1, k3, ?_, ?_⟩
    · rw [k4]
      decide
    · rw [k5]
      decide
  · intro b hb
    rw [vty_receive_qirq, if_pos ⟨hdrain.symm, hb⟩]

theorem read_drains_device_witness :
    vty_lookup sample_spapr 5 = some (1, wrapped_dev) ∧ UnreadInv wrapped_dev ∧
    (h_get_term_char sample_spapr (fun _ => 5)).status = HStatus.H_SUCCESS :=
  ⟨rfl, ⟨by decide, by decide, by decide⟩,
   (read_drains_device sample_spapr (fun _ => 5) 1 wrapped_dev rfl
      ⟨by decide, by decide, by decide⟩).1⟩

/-! ## The two encodings -/

/-- C19. The wire encodings of the two handlers are mutually inverse: unpacking,
as `h_put_term_char` does, the two words `h_get_term_char` builds from a
16-byte sequence gives back the sequence; packing, as `h_get_term_char` does, the
16 bytes `h_put_term_char` unpacks from two 64-bit words gives back the words;
and a Write fed the count and the two words a Read returned writes through
exactly the bytes that Read dequeued. -/
theorem wire_encodings_inverse :
    (∀ c : List Byte, c.length = 16 →
      cpu_to_be64 (be64_to_cpu (c.take 8)) ++ cpu_to_be64 (be64_to_cpu ((c.drop 8).take 8))
        = c) ∧
    (∀ w0 w1 : Nat, w0 < 2 ^ 64 → w1 < 2 ^ 64 →
      be64_to_cpu ((cpu_to_be64 w0 ++ cpu_to_be64 w1).take 8) = w0 ∧
      be64_to_cpu (((cpu_to_be64 w0 ++ cpu_to_be64 w1).drop 8).take 8) = w1) ∧
    (∀ (spapr spapr2 : sPAPREnvironment) (args args2 : Nat → Nat) (i j : Nat)
      (sdev sdev2 : VIOsPAPRVTYDevice),
      vty_lookup spapr (args 0) = some (i, sdev) → UnreadInv sdev →
      vty_lookup spapr2 (args2 0) = some (j, sdev2) →
      args2 1 = (h_get_term_char spapr args).args 0 →
      args2 2 = (h_get_term_char spapr args).args 1 →
      args2 3 = (h_get_term_char spapr args).args 2 →
      (h_put_term_char spapr2 args2).status = HStatus.H_SUCCESS ∧
      (h_put_term_char spapr2 args2).spapr = store_dev spapr2 j
        { sdev2 with chardev := sdev2.chardev ++ [(vty_getchars sdev 16).buf] }) := by
  refine ⟨?_, ?_, ?_⟩
  · intro c hc
    have h1 : (c.take 8).length = 8 := by
      rw [List.length_take, hc]
      rfl
    have h2 : ((c.drop 8).take 8).length = 8 := by
      rw [List.length_take, List.length_drop, hc]
      rfl
    have h3 : (c.drop 8).take 8 = c.drop 8 := by
      apply List.take_of_length_le
      rw [List.length_drop, hc]
    rw [(be64_roundtrip _ h1).1, (be64_roundtrip _ h2).1, h3]
    exact List.take_append_drop 8 c
  · intro w0 w1 h0 h1
    rw [List.take_left' (cpu_to_be64_length _), List.drop_left' (cpu_to_be64_length _),
      List.take_of_length_le (by rw [cpu_to_be64_length])]
    exact ⟨cpu_to_be64_decode _ h0, cpu_to_be64_decode _ h1⟩
  · intro spapr spapr2 args args2 i j sdev sdev2 hl hinv hl2 a1 a2 a3
    obtain ⟨_, _, g3, g4, g5, _⟩ := h_get_term_char_outputs spapr args i sdev hl hinv
    obtain ⟨_, hb, _⟩ := vty_getchars_16 sdev hinv
    have hu : unread sdev ≤ 16 := hinv.2.2
    have hq : (queue sdev).length = unread sdev := queue_length sdev
    obtain ⟨c1, _, _⟩ := chunk_words (queue sdev) (by omega)
    rw [hq] at c1
    have hlen : ¬ args2 1 > 16 := by
      rw [a1, g3]
      omega
    rw [h_put_term_char_written spapr2 args2 j sdev2 hl2 hlen, a1, a2, a3, g3, g4, g5, c1, hb]
    refine ⟨rfl, ?_⟩
    simp only [vty_putchars, qemu_chr_fe_write, Int.toNat_ofNat]
    rw [List.take_left' hq]

/-! ## Address zero -/

/-- C20. The address-0 fallback agrees with the exact lookup: on a registry
that holds spapr-vty devices only, with pairwise distinct `reg` values,
`vty_lookup(0)` returns what `spapr_vty_get_default` returns, whether or not a
device with `reg` 0 is registered. -/
theorem lookup_zero_is_default (spapr : sPAPREnvironment)
    (_honly : spapr.vio_bus.children.all DeviceState.is_vty = true)
    (hdistinct : (spapr.vio_bus.children.map DeviceState.reg).Nodup) :
    vty_lookup spapr 0 = spapr_vty_get_default spapr.vio_bus := by
  cases hf : spapr_vio_find_by_reg spapr.vio_bus 0 with
  | none => simp only [vty_lookup, hf, if_true]
  | some p =>
    obtain ⟨j, e⟩ := p
    simp only [vty_lookup, hf]
    obtain ⟨_, hje, hreg⟩ := find_by_reg_loop_sound _ _ _ _ _ hf
    simp only [Nat.sub_zero] at hje
    cases hd : spapr_vty_get_default spapr.vio_bus with
    | none =>
      unfold spapr_vty_get_default at hd
      rw [get_default_loop_none] at hd
      exact absurd (List.getElem?_mem hje) (hd.2 e)
    | some q =>
      obtain ⟨i, d⟩ := q
      unfold spapr_vty_get_default at hd
      have hmin := (get_default_loop_min _ _ _ _ _ hd).2 e (List.getElem?_mem hje)
      have hid : spapr.vio_bus.children[i]? = some (DeviceState.vty d) := by
        rcases get_default_loop_sound _ _ _ _ _ hd with h1 | ⟨_, h1⟩
        · exact absurd h1 (by simp)
        · exact h1
      have hdreg : d.reg = e.reg := by omega
      have hlt : i < (spapr.vio_bus.children.map DeviceState.reg).length := by
        rw [List.length_map]
        by_contra hc
        rw [List.getElem?_eq_none (by omega)] at hid
        exact absurd hid (by simp)
      have hij : i = j := by
        apply List.getElem?_inj hlt hdistinct
        rw [List.getElem?_map, List.getElem?_map, hid, hje]
        simp only [Option.map_some', DeviceState.reg, hdreg]
      subst hij
      rw [hid] at hje
      simp only [Option.some.injEq, DeviceState.vty.injEq] at hje
      rw [hje]

theorem lookup_zero_is_default_witness :
    vty_lookup zero_spapr 0 = some (1, initial_dev 0) ∧
    vty_lookup zero_spapr 0 = spapr_vty_get_default zero_spapr.vio_bus :=
  ⟨rfl, lookup_zero_is_default zero_spapr (by decide) (by decide)⟩


end SpaprVty
